import Mathlib

/-!
# Verification of the family-tree layout engine

Shallow embedding of the layout / connector subsystem of
`src/components/FamilyTreeApp.tsx` (person data model from
`src/types/familyTree.ts`, the variant actually imported by the app, i.e. the
one declaring `parentIds`, `spouseId` and `childSortOrder`).

Modelling conventions:
* JavaScript `Map`s are association lists (`List (K × α)`): `Map.get` is first
  match (`alLookup`), `Map.set` overwrites in place keeping the key's position
  or appends a new key at the end (`alSet`), and iteration order is list order,
  exactly the insertion-order semantics of JS `Map`.
* JavaScript `Set`s are lists used only through membership.
* JS numbers are embedded as rationals (`ℚ`); all arithmetic appearing in the
  layout code (sums, halving, averaging, min/max) is exact on the rationals.
* `Array.prototype.sort` is a stable sort with a user comparator; it is
  embedded as `List.insertionSort`, which is stable, with the comparator's
  reflexive closure as the relation.  The default string comparator (used on id
  arrays) compares code units, embedded as `charListLt` on `String.data`;
  `localeCompare` on ids is embedded as the same code-point comparison.
* The `isMobile`-dependent pixel constants are a parameter (`LayoutConsts`)
  with the desktop and mobile instantiations given explicitly.
-/

namespace FamilyTree

/-- JS `Map.get`: value of the first entry with the given key. -/
def alLookup {K : Type} [DecidableEq K] {α : Type} : List (K × α) → K → Option α
  | [], _ => none
  | (k', v) :: rest, k => if k' = k then some v else alLookup rest k

/-- JS `Map.set`: overwrite in place if the key exists, else append at the end. -/
def alSet {K : Type} [DecidableEq K] {α : Type} : List (K × α) → K → α → List (K × α)
  | [], k, v => [(k, v)]
  | (k', v') :: rest, k, v =>
    if k' = k then (k, v) :: rest else (k', v') :: alSet rest k v

/-- Keys of an association list, in insertion order. -/
def alKeys {K α : Type} (l : List (K × α)) : List K := l.map Prod.fst

/-- Code-unit lexicographic strict comparison on character lists: the order
used by the JS default string comparator. -/
def charListLt : List Char → List Char → Bool
  | [], [] => false
  | [], _ :: _ => true
  | _ :: _, [] => false
  | a :: as, b :: bs =>
    if a.toNat < b.toNat then true
    else if b.toNat < a.toNat then false
    else charListLt as bs

/-- JS `<` on strings (also the sign of `localeCompare` for plain ids). -/
def jsStrLt (a b : String) : Bool := charListLt a.data b.data

/-- Reflexive closure of `jsStrLt`. -/
def jsStrLe (a b : String) : Bool := !(jsStrLt b a)

/-- JS `array.sort()` on strings (default comparator, stable). -/
def jsSortStrings (l : List String) : List String :=
  l.insertionSort (fun a b => jsStrLe a b = true)

/-- JS `array.join(sep)`. -/
def joinSep (sep : String) : List String → String
  | [] => ""
  | [s] => s
  | s :: rest => s ++ sep ++ joinSep sep rest

/-- JS `[...ids].sort().join(sep)`. -/
def jsSortJoin (sep : String) (l : List String) : String := joinSep sep (jsSortStrings l)

/-- A string none of whose characters is the `'-'` separator. -/
def hyphenFree (s : String) : Prop := '-' ∉ s.data

instance (s : String) : Decidable (hyphenFree s) := by unfold hyphenFree; infer_instance

/-- Person record (`src/types/familyTree.ts`).  Display-only fields (name,
gender, life status, dates, photo, notes, living group, address, phone) have no
effect on any function embedded here and are omitted.  A missing `parentIds`
array behaves exactly like an empty one at every use site of the embedded code,
so `parentIds` is a plain list; `spouseId` stays optional, and a missing
`isRepresentative` behaves like `false`. -/
structure PersonData where
  id : String
  relationship : String := "other"
  isRepresentative : Bool := false
  parentIds : List String := []
  spouseId : Option String := none
deriving DecidableEq

/-- The two values of `RelationshipEdge.type`. -/
inductive REdgeType where
  | parentChild
  | spouse
deriving DecidableEq

/-- `RelationshipEdge` (style and label fields are display-only and omitted). -/
structure RelationshipEdge where
  id : String
  source : String
  target : String
  rtype : REdgeType
deriving DecidableEq

/-- The `childSortOrder` record of `src/types/familyTree.ts`: lookup of a key
of the record, `none` for absent keys. -/
def childSortOrder (r : String) : Option Int :=
  if r = "eldest_son" then some 1
  else if r = "eldest_daughter" then some 2
  else if r = "second_son" then some 3
  else if r = "second_daughter" then some 4
  else if r = "third_son" then some 5
  else if r = "third_daughter" then some 6
  else if r = "grandchild" then some 10
  else if r = "other" then some 99
  else none

/-- `childSortOrder[rel] ?? 99`. -/
def childRank (r : String) : Int := (childSortOrder r).getD 99

/-- One parent-child edge pushed by `generateEdgesFromPersons`. -/
def mkParentEdge (pid cid : String) : RelationshipEdge :=
  ⟨"e" ++ pid ++ "-" ++ cid, pid, cid, .parentChild⟩

/-- `[person.id, person.spouseId].sort().join('-')`. -/
def spousePairKey (a b : String) : String := jsSortJoin "-" [a, b]

/-- Loop body of `generateEdgesFromPersons`, with the `spouseEdgeSet`
accumulator threaded explicitly. -/
def genEdgesGo : List PersonData → List String → List RelationshipEdge
  | [], _ => []
  | p :: rest, seen =>
    let parentEdges := p.parentIds.map (fun pid => mkParentEdge pid p.id)
    match p.spouseId with
    | none => parentEdges ++ genEdgesGo rest seen
    | some s =>
      let key := spousePairKey p.id s
      if key ∈ seen then parentEdges ++ genEdgesGo rest seen
      else parentEdges ++ (⟨"spouse-" ++ key, p.id, s, .spouse⟩ :: genEdgesGo rest (key :: seen))

/-- `generateEdgesFromPersons` (FamilyTreeApp.tsx lines 69-100). -/
def generateEdgesFromPersons (persons : List PersonData) : List RelationshipEdge :=
  genEdgesGo persons []

/-- `[...p.parentIds].sort().join(',')`: the sibling-group key of `sortSiblings`. -/
def parentGroupKey (p : PersonData) : String := jsSortJoin "," p.parentIds

/-- The comparator of the per-group sibling sort: `childSortOrder` rank
ascending, id comparison as tie-break (reflexive closure). -/
def sibOrderRel (a b : PersonData) : Prop :=
  childRank a.relationship < childRank b.relationship ∨
    (childRank a.relationship = childRank b.relationship ∧ jsStrLe a.id b.id = true)

instance (a b : PersonData) : Decidable (sibOrderRel a b) := by
  unfold sibOrderRel; infer_instance

/-- Loop body of the grouping phase of `sortSiblings`: no-parent people are
appended to the first component, everyone else is pushed onto their
parent-pair-keyed group. -/
def groupStep (acc : List PersonData × List (String × List PersonData)) (p : PersonData) :
    List PersonData × List (String × List PersonData) :=
  if p.parentIds.length > 0 then
    (acc.1, alSet acc.2 (parentGroupKey p) ((alLookup acc.2 (parentGroupKey p)).getD [] ++ [p]))
  else
    (acc.1 ++ [p], acc.2)

/-- `noParent` list and `parentGroupMap` of `sortSiblings`. -/
def siblingGroups (persons : List PersonData) :
    List PersonData × List (String × List PersonData) :=
  persons.foldl groupStep ([], [])

/-- The enumeration order used to build `orderMap`: no-parent people first,
then each sibling group (sorted by the comparator) in key insertion order. -/
def orderListOf (persons : List PersonData) : List PersonData :=
  (siblingGroups persons).1 ++
    ((siblingGroups persons).2.map (fun g => g.2.insertionSort sibOrderRel)).flatten

/-- Loop body building `orderMap` (`orderMap.set(p.id, idx++)`). -/
def orderMapGo (acc : List (String × Nat) × Nat) (p : PersonData) :
    List (String × Nat) × Nat :=
  (alSet acc.1 p.id acc.2, acc.2 + 1)

/-- The `orderMap` of `sortSiblings`. -/
def orderMapOf (persons : List PersonData) : List (String × Nat) :=
  ((orderListOf persons).foldl orderMapGo ([], 0)).1

/-- `sortSiblings` (FamilyTreeApp.tsx lines 105-148): stable sort of the input
by `orderMap.get(id) ?? 0`. -/
def sortSiblings (persons : List PersonData) : List PersonData :=
  persons.insertionSort
    (fun a b =>
      (alLookup (orderMapOf persons) a.id).getD 0 ≤ (alLookup (orderMapOf persons) b.id).getD 0)

/-- A point of the layout coordinate space. -/
structure Pos where
  x : ℚ
  y : ℚ
deriving DecidableEq

/-- The four pixel constants of `calculateLayout`; they depend only on the
`isMobile` flag, so a whole run uses one fixed record. -/
structure LayoutConsts where
  spouseGap : ℚ
  siblingGap : ℚ
  generationGap : ℚ
  nodeWidth : ℚ
deriving DecidableEq

/-- Constants for the desktop branch (`window.innerWidth >= 768`). -/
def desktopConsts : LayoutConsts := ⟨160, 200, 220, 130⟩

/-- Constants for the mobile branch. -/
def mobileConsts : LayoutConsts := ⟨140, 160, 180, 110⟩

/-- The `personMap` of `calculateLayout`: id-keyed map over the sorted list. -/
def personMapOf (sorted : List PersonData) : List (String × PersonData) :=
  sorted.foldl (fun m p => alSet m p.id p) []

/-- Root choice (line 170): first representative, else first self, else the
first element of the sorted list; `none` only on the empty list, which
`calculateLayout` has already returned on. -/
def chooseRoot (sorted : List PersonData) : Option PersonData :=
  (sorted.find? (fun p => p.isRepresentative) <|>
    sorted.find? (fun p => p.relationship == "self")) <|> sorted.head?

/-- The `childrenOf` index: parent id to the ids of the persons listing it in
`parentIds`, in sorted-list order. -/
def childrenOfMap (sorted : List PersonData) : List (String × List String) :=
  sorted.foldl
    (fun m p =>
      p.parentIds.foldl
        (fun m' pid => alSet m' pid ((alLookup m' pid).getD [] ++ [p.id])) m)
    []

/-- Which link of the BFS discovered a person (ghost data, see `BfsState`). -/
inductive DiscKind where
  | parent
  | child
  | spouse
deriving DecidableEq

/-- Ghost record: `disc` was first visited from `srcP` along a `kind` link. -/
structure DiscEntry where
  disc : String
  srcP : String
  kind : DiscKind
deriving DecidableEq

/-- State of the BFS loop of `calculateLayout` (lines 169-216): `gens` is the
`generationOf` map, `visited` the visited set (used only through membership),
`queue` the work queue.  `log` is a ghost field recording the discovery edges;
it is written here only, read by no other definition, and influences none of
the other three fields — it exists so that the theorems can speak about how a
person was first reached. -/
structure BfsState where
  gens : List (String × Int)
  visited : List String
  queue : List String
  log : List DiscEntry
deriving DecidableEq

/-- The generation offset the BFS assigns along each link kind. -/
def genOffset : DiscKind → Int
  | .parent => -1
  | .child => 1
  | .spouse => 0

/-- One `if (!visited.has(pid) && personMap.has(pid)) { set gen; add; push }`
step; `g` is the generation assigned on discovery (`currentGen + offset`). -/
def visitStep (personMap : List (String × PersonData)) (g : Int) (srcId : String)
    (kind : DiscKind) (st : BfsState) (pid : String) : BfsState :=
  if pid ∉ st.visited ∧ (alLookup personMap pid).isSome then
    ⟨alSet st.gens pid g, st.visited ++ [pid], st.queue ++ [pid],
      st.log ++ [⟨pid, srcId, kind⟩]⟩
  else st

/-- Body of the BFS while-loop for one dequeued id: parents, then children,
then spouse. -/
def processPerson (personMap : List (String × PersonData))
    (childrenOf : List (String × List String)) (st : BfsState) (currentId : String) :
    BfsState :=
  let currentGen := (alLookup st.gens currentId).getD 0
  match alLookup personMap currentId with
  | none => st
  | some current =>
    let st1 := current.parentIds.foldl
      (visitStep personMap (currentGen - 1) currentId .parent) st
    let st2 := ((alLookup childrenOf currentId).getD []).foldl
      (visitStep personMap (currentGen + 1) currentId .child) st1
    match current.spouseId with
    | some sid => visitStep personMap currentGen currentId .spouse st2 sid
    | none => st2

/-- The BFS while-loop.  Each loop iteration dequeues one id, and ids enter
the queue at most once ever (guarded by `visited`, which only ever grows and
only holds ids of persons), so the number of iterations is at most the number
of persons: fuel `sorted.length` makes the recursion structural without
cutting the loop short. -/
def bfsGo (personMap : List (String × PersonData))
    (childrenOf : List (String × List String)) : Nat → BfsState → BfsState
  | 0, st => st
  | fuel + 1, st =>
    match st.queue with
    | [] => st
    | currentId :: rest =>
      bfsGo personMap childrenOf fuel
        (processPerson personMap childrenOf ⟨st.gens, st.visited, rest, st.log⟩ currentId)

/-- Initial BFS state: `generationOf.set(root.id, 0)`, root visited and queued. -/
def bfsInit (root : PersonData) : BfsState := ⟨[(root.id, 0)], [root.id], [root.id], []⟩

/-- The whole BFS of `calculateLayout` on the sorted list (`none` iff empty). -/
def bfsRun (sorted : List PersonData) : Option BfsState :=
  (chooseRoot sorted).map (fun root =>
    bfsGo (personMapOf sorted) (childrenOfMap sorted) sorted.length (bfsInit root))

/-- Lines 218-219: any person the BFS did not reach defaults to generation 0. -/
def fillDefaultGens (sorted : List PersonData) (gens : List (String × Int)) :
    List (String × Int) :=
  sorted.foldl (fun g p => if (alLookup g p.id).isSome then g else alSet g p.id 0) gens

/-- The final `generationOf` map of `calculateLayout persons`. -/
def generationMapOf (persons : List PersonData) : List (String × Int) :=
  match bfsRun (sortSiblings persons) with
  | none => []
  | some st => fillDefaultGens (sortSiblings persons) st.gens

/-- The ids visited by the BFS ("reached from the root"). -/
def reachedIds (persons : List PersonData) : List String :=
  match bfsRun (sortSiblings persons) with
  | none => []
  | some st => st.visited

/-- The ghost discovery log of the BFS run. -/
def bfsLogOf (persons : List PersonData) : List DiscEntry :=
  match bfsRun (sortSiblings persons) with
  | none => []
  | some st => st.log

/-- The `generations` map (lines 223-228): generation number to the persons of
that generation, in sorted-list order, keys in first-occurrence order. -/
def generationsOf (persons : List PersonData) : List (Int × List PersonData) :=
  (sortSiblings persons).foldl
    (fun m p =>
      let g := (alLookup (generationMapOf persons) p.id).getD 0
      alSet m g ((alLookup m g).getD [] ++ [p]))
    []

/-- `Math.min(...generations.keys())` (0 on the empty list, which
`calculateLayout` has already returned on). -/
def minGenOf (persons : List PersonData) : Int :=
  match alKeys (generationsOf persons) with
  | [] => 0
  | k :: ks => ks.foldl min k

/-- The `spousePairs` map (lines 232-235). -/
def spousePairsOf (sorted : List PersonData) : List (String × String) :=
  sorted.foldl
    (fun m p =>
      match p.spouseId with
      | some s => alSet m p.id s
      | none => m)
    []

/-- A placement unit: one person or a spouse pair. -/
structure LUnit where
  ids : List String
  width : ℚ
  centerX : ℚ
deriving DecidableEq

/-- Loop body of unit building (lines 248-259): pair a person with their
spouse when the spouse is in the same generation and not yet placed. -/
def buildUnitsStep (C : LayoutConsts) (spousePairs : List (String × String))
    (genPersons : List PersonData) (acc : List LUnit × List String) (person : PersonData) :
    List LUnit × List String :=
  if person.id ∈ acc.2 then acc
  else
    match alLookup spousePairs person.id with
    | some sid =>
      if genPersons.any (fun p => p.id == sid) ∧ sid ∉ acc.2 then
        (acc.1 ++ [⟨[person.id, sid], C.spouseGap + C.nodeWidth, 0⟩],
          acc.2 ++ [person.id, sid])
      else (acc.1 ++ [⟨[person.id], C.nodeWidth, 0⟩], acc.2 ++ [person.id])
    | none => (acc.1 ++ [⟨[person.id], C.nodeWidth, 0⟩], acc.2 ++ [person.id])

/-- The units of one generation, in person order. -/
def buildUnits (C : LayoutConsts) (spousePairs : List (String × String))
    (genPersons : List PersonData) : List LUnit :=
  (genPersons.foldl (buildUnitsStep C spousePairs genPersons) ([], [])).1

/-- `sortedGens`: the generation keys ascending. -/
def sortedGensOf (persons : List PersonData) : List Int :=
  (alKeys (generationsOf persons)).insertionSort (fun a b => a ≤ b)

/-- The `genUnits` map in `sortedGens` (= insertion) order, before Pass 2. -/
def genUnitsOf (C : LayoutConsts) (persons : List PersonData) :
    List (Int × List LUnit) :=
  (sortedGensOf persons).map (fun g =>
    (g, buildUnits C (spousePairsOf (sortSiblings persons))
      ((alLookup (generationsOf persons) g).getD [])))

/-- The `placeUnits` cursor loop (lines 264-270): gap before every unit but
the first, each center at cursor plus half width; also returns the final
cursor (the total width). -/
def placeGo (C : LayoutConsts) : Bool → ℚ → List LUnit → List LUnit × ℚ
  | _, x, [] => ([], x)
  | first, x, u :: rest =>
    let x1 := if first then x else x + C.siblingGap
    let u' := { u with centerX := x1 + u.width / 2 }
    let res := placeGo C false (x1 + u.width) rest
    (u' :: res.1, res.2)

/-- `placeUnits` (lines 264-274): lay out left to right, then shift so the row
is centered on x = 0. -/
def placeUnits (C : LayoutConsts) (units : List LUnit) : List LUnit :=
  let res := placeGo C true 0 units
  res.1.map (fun u => { u with centerX := u.centerX - res.2 / 2 })

/-- The `parentPositions` list of one unit (lines 286-297): centers of the
parent-generation units containing any member's parent ids. -/
def parentCentersFor (personMap : List (String × PersonData)) (parentUnits : List LUnit)
    (unit : LUnit) : List ℚ :=
  unit.ids.foldl
    (fun acc i =>
      match alLookup personMap i with
      | some person =>
        person.parentIds.foldl
          (fun acc' pid =>
            match parentUnits.find? (fun u => u.ids.contains pid) with
            | some pu => acc' ++ [pu.centerX]
            | none => acc')
          acc
      | none => acc)
    []

/-- Lines 298-301: pull a unit to the average of its parent centers. -/
def centerUnit (personMap : List (String × PersonData)) (parentUnits : List LUnit)
    (unit : LUnit) : LUnit :=
  let ps := parentCentersFor personMap parentUnits unit
  if ps.length > 0 then { unit with centerX := ps.sum / (ps.length : ℚ) } else unit

/-- The overlap-resolution sweep (lines 306-311), after the previous unit's
final center is known. -/
def sweepUnits (C : LayoutConsts) (prev : LUnit) : List LUnit → List LUnit
  | [] => []
  | v :: rest =>
    let minX := prev.centerX + prev.width / 2 + C.siblingGap + v.width / 2
    let v' := if v.centerX < minX then { v with centerX := minX } else v
    v' :: sweepUnits C v' rest

/-- Comparator of `units.sort((a, b) => a.centerX - b.centerX)`. -/
def unitCenterLe (a b : LUnit) : Prop := a.centerX ≤ b.centerX

instance (a b : LUnit) : Decidable (unitCenterLe a b) := by
  unfold unitCenterLe; infer_instance

/-- Sort by center then sweep left to right (lines 305-311). -/
def resolveOverlap (C : LayoutConsts) (units : List LUnit) : List LUnit :=
  match units.insertionSort unitCenterLe with
  | [] => []
  | u :: rest => u :: sweepUnits C u rest

/-- Pass 2 for the generations below the top one: center each unit under its
parents (previous, already finalized row), then resolve overlaps. -/
def layoutLowerRows (C : LayoutConsts) (personMap : List (String × PersonData)) :
    List LUnit → List (Int × List LUnit) → List (Int × List LUnit)
  | _, [] => []
  | prev, (g, units) :: rest =>
    let units' := resolveOverlap C (units.map (centerUnit personMap prev))
    (g, units') :: layoutLowerRows C personMap units' rest

/-- All rows after Pass 2: top row placed and centered on 0, each lower row
centered under its parents and swept. -/
def layoutRows (C : LayoutConsts) (persons : List PersonData) :
    List (Int × List LUnit) :=
  match genUnitsOf C persons with
  | [] => []
  | (g, units) :: rest =>
    let top := placeUnits C units
    (g, top) :: layoutLowerRows C (personMapOf (sortSiblings persons)) top rest

/-- Pass 3 for one unit (lines 317-324): a pair sits symmetrically around the
unit center, a singleton exactly on it.  (`ids` is never empty; a length other
than 1 or 2 does not occur but would take the singleton branch like the
source's `else`.) -/
def finalizeUnit (C : LayoutConsts) (y : ℚ) (acc : List (String × Pos)) (u : LUnit) :
    List (String × Pos) :=
  match u.ids with
  | [a, b] =>
    alSet (alSet acc a ⟨u.centerX - C.spouseGap / 2, y⟩) b ⟨u.centerX + C.spouseGap / 2, y⟩
  | a :: _ => alSet acc a ⟨u.centerX, y⟩
  | [] => acc

/-- Pass 3 (lines 315-325): y from the generation index, x from the unit. -/
def finalizePositions (C : LayoutConsts) (minGen : Int)
    (rows : List (Int × List LUnit)) : List (String × Pos) :=
  rows.foldl
    (fun acc row =>
      row.2.foldl (finalizeUnit C (((row.1 - minGen : Int) : ℚ) * C.generationGap)) acc)
    []

/-- `calculateLayout` (lines 153-328). -/
def calculateLayout (C : LayoutConsts) (persons : List PersonData) :
    List (String × Pos) :=
  if persons.isEmpty then []
  else finalizePositions C (minGenOf persons) (layoutRows C persons)

/-- A ReactFlow edge as far as the embedded logic is concerned: `ftype` is the
`type` field (`"smoothstep"` for parent connectors, `"straight"` for spouse
edges); style, handles, label and zIndex are display-only and omitted. -/
structure FlowEdge where
  id : String
  source : String
  target : String
  ftype : String
deriving DecidableEq

/-- A junction node (type `'junction'`); only id and position matter here. -/
structure JNode where
  id : String
  x : ℚ
  y : ℚ
deriving DecidableEq

/-- The `childParents` map of `buildFlowElements` (lines 341-347). -/
def childParentsOf (relEdges : List RelationshipEdge) : List (String × List String) :=
  relEdges.foldl
    (fun m e =>
      if e.rtype = .parentChild then
        alSet m e.target ((alLookup m e.target).getD [] ++ [e.source])
      else m)
    []

/-- `[...parentIds].sort().join('-')`. -/
def pairKeyOf (parentIds : List String) : String := jsSortJoin "-" parentIds

/-- State of the first loop of `buildFlowElements`. -/
structure JBuildState where
  junctionNodes : List JNode
  spouseJunctions : List (String × String)
  edges : List FlowEdge
deriving DecidableEq

/-- One iteration of the loop over `childParents` (lines 353-392): for a
two-parent child, create the junction for its pair key if new and both parent
positions exist, then connect the junction (if any) to the child. -/
def junctionStep (positions : List (String × Pos)) (st : JBuildState)
    (entry : String × List String) : JBuildState :=
  if entry.2.length = 2 then
    let st1 :=
      if (alLookup st.spouseJunctions (pairKeyOf entry.2)).isSome then st
      else
        match entry.2 with
        | [p0, p1] =>
          match alLookup positions p0, alLookup positions p1 with
          | some pos1, some pos2 =>
            { st with
              junctionNodes := st.junctionNodes ++
                [⟨"junction-" ++ pairKeyOf entry.2, (pos1.x + pos2.x) / 2,
                  max pos1.y pos2.y + 100⟩],
              spouseJunctions :=
                alSet st.spouseJunctions (pairKeyOf entry.2) ("junction-" ++ pairKeyOf entry.2) }
          | _, _ => st
        | _ => st
    match alLookup st1.spouseJunctions (pairKeyOf entry.2) with
    | some jId =>
      { st1 with
        edges := st1.edges ++ [⟨"e-" ++ jId ++ "-" ++ entry.1, jId, entry.1, "smoothstep"⟩] }
    | none => st1
  else st

/-- The `twoParentChildren` set.  The source fills it inside the first loop,
but it is read only by the second loop, after the first has finished, so it
equals the children with exactly two recorded parent edges. -/
def twoParentChildrenOf (relEdges : List RelationshipEdge) : List String :=
  ((childParentsOf relEdges).filter (fun e => e.2.length == 2)).map Prod.fst

/-- Second loop (lines 395-423): spouse edges pass through as `straight`
edges; parent-child edges of two-parent children are skipped, the rest pass
through as `smoothstep` edges. -/
def normalEdgeStep (twoParent : List String) (acc : List FlowEdge)
    (e : RelationshipEdge) : List FlowEdge :=
  match e.rtype with
  | .spouse => acc ++ [⟨e.id, e.source, e.target, "straight"⟩]
  | .parentChild =>
    if e.target ∈ twoParent then acc
    else acc ++ [⟨e.id, e.source, e.target, "smoothstep"⟩]

/-- `buildFlowElements` (lines 333-426): junction edges first, then the pass
over `relEdges`; returns (edges, junctionNodes). -/
def buildFlowElements (relEdges : List RelationshipEdge)
    (positions : List (String × Pos)) : List FlowEdge × List JNode :=
  let jst := (childParentsOf relEdges).foldl (junctionStep positions) ⟨[], [], []⟩
  (jst.edges ++ relEdges.foldl (normalEdgeStep (twoParentChildrenOf relEdges)) [],
    jst.junctionNodes)

/-- The layout pipeline as invoked by `rebuildFlow` (lines 633-637):
positions, then relationship edges, then flow edges and junction nodes. -/
def layoutPipeline (C : LayoutConsts) (persons : List PersonData) :
    List (String × Pos) × List FlowEdge × List JNode :=
  let positions := calculateLayout C persons
  let relEdges := generateEdgesFromPersons persons
  let fl := buildFlowElements relEdges positions
  (positions, fl.1, fl.2)

/-- `handleSavePerson` (lines 791-829): replace the person, point the new
partner back, unlink a previous partner whose link changed, and on removal
unlink the old partner.  (A spouse id is a nonempty string in this data model,
so JS truthiness of `spouseId` is `Option.isSome`.) -/
def handleSavePerson (persons : List PersonData) (updatedPerson : PersonData) :
    List PersonData :=
  let all1 := persons.map (fun p => if p.id = updatedPerson.id then updatedPerson else p)
  let all2 :=
    match updatedPerson.spouseId with
    | some s =>
      all1.map (fun p => if p.id = s then { p with spouseId := some updatedPerson.id } else p)
    | none => all1
  let oldPerson := persons.find? (fun p => p.id == updatedPerson.id)
  let all3 :=
    match oldPerson with
    | some op =>
      match op.spouseId with
      | some os =>
        if updatedPerson.spouseId ≠ some os then
          all2.map (fun p =>
            if p.id = os ∧ p.spouseId = some updatedPerson.id then
              { p with spouseId := none }
            else p)
        else all2
      | none => all2
    | none => all2
  match updatedPerson.spouseId, oldPerson with
  | none, some op =>
    match op.spouseId with
    | some os =>
      all3.map (fun p =>
        if p.id = os ∧ p.spouseId = some updatedPerson.id then
          { p with spouseId := none }
        else p)
    | none => all3
  | _, _ => all3

/-! ## Statements of the claims and auxiliary predicates -/

/-- The spouse relation is symmetric inside a person list. -/
def spouseSymmetric (persons : List PersonData) : Prop :=
  ∀ a ∈ persons, ∀ b ∈ persons, a.spouseId = some b.id → b.spouseId = some a.id

instance (persons : List PersonData) : Decidable (spouseSymmetric persons) := by
  unfold spouseSymmetric; infer_instance

/-- Claim C2 as stated: a parent resolvable in the list sits one generation
above its child whenever both are reached by the BFS. -/
def C2Statement (persons : List PersonData) : Prop :=
  ∀ p ∈ persons, ∀ q ∈ persons, q.id ∈ p.parentIds →
    p.id ∈ reachedIds persons → q.id ∈ reachedIds persons →
    alLookup (generationMapOf persons) q.id =
      (alLookup (generationMapOf persons) p.id).map (fun g => g - 1)

instance (persons : List PersonData) : Decidable (C2Statement persons) := by
  unfold C2Statement; infer_instance

/-- Claim C6 as stated: spouses get equal generations whenever both reached. -/
def C6Statement (persons : List PersonData) : Prop :=
  ∀ p ∈ persons, ∀ q ∈ persons, p.spouseId = some q.id →
    p.id ∈ reachedIds persons → q.id ∈ reachedIds persons →
    alLookup (generationMapOf persons) p.id = alLookup (generationMapOf persons) q.id

instance (persons : List PersonData) : Decidable (C6Statement persons) := by
  unfold C6Statement; infer_instance

/-- Is `e` a spouse edge joining `a` and `b` (in either direction)? -/
def spouseEdgeBetween (a b : String) (e : RelationshipEdge) : Bool :=
  decide (e.rtype = .spouse) &&
    ((e.source == a && e.target == b) || (e.source == b && e.target == a))

/-- Claim C9 as stated: exactly one spouse edge per unordered pair `{A, B}`
with `A.spouseId = B`, identified by the sorted-pair key. -/
def C9Statement (persons : List PersonData) : Prop :=
  ∀ p ∈ persons, ∀ s, p.spouseId = some s →
    ((generateEdgesFromPersons persons).filter (spouseEdgeBetween p.id s)).length = 1 ∧
    ∀ e ∈ generateEdgesFromPersons persons, spouseEdgeBetween p.id s e = true →
      e.id = "spouse-" ++ spousePairKey p.id s

/-- Claim C1 as stated, over the connector builder's inputs: for every child
entry with exactly two recorded parents, both positioned, there is exactly one
junction node for the sorted parent-pair key, it sits at the parents' x
midpoint, and the only `smoothstep` edge into the child is the one from that
junction (so no direct parent edge of the child remains). -/
def C1Statement (relEdges : List RelationshipEdge) (positions : List (String × Pos)) :
    Prop :=
  ∀ ce ∈ childParentsOf relEdges, ∀ p0 p1, ce.2 = [p0, p1] →
    ∀ q0, alLookup positions p0 = some q0 → ∀ q1, alLookup positions p1 = some q1 →
      (((buildFlowElements relEdges positions).2.filter
          (fun j => j.id == "junction-" ++ pairKeyOf ce.2)).length = 1) ∧
      (∀ j ∈ (buildFlowElements relEdges positions).2,
        j.id = "junction-" ++ pairKeyOf ce.2 → j.x = (q0.x + q1.x) / 2) ∧
      ((buildFlowElements relEdges positions).1.filter
          (fun e => e.target == ce.1 && e.ftype == "smoothstep") =
        [⟨"e-junction-" ++ pairKeyOf ce.2 ++ "-" ++ ce.1,
          "junction-" ++ pairKeyOf ce.2, ce.1, "smoothstep"⟩])

/-- Claim C10 as stated: a two-parent child with an unpositioned parent gets
no junction for its pair and no parent connector at all (every edge into it is
a `straight` spouse edge). -/
def C10Statement (relEdges : List RelationshipEdge) (positions : List (String × Pos)) :
    Prop :=
  ∀ ce ∈ childParentsOf relEdges, ce.2.length = 2 →
    (∃ p ∈ ce.2, alLookup positions p = none) →
      (∀ j ∈ (buildFlowElements relEdges positions).2,
        j.id ≠ "junction-" ++ pairKeyOf ce.2) ∧
      (∀ e ∈ (buildFlowElements relEdges positions).1, e.target = ce.1 →
        e.ftype = "straight")

/-- Every parent-child edge source is free of the `'-'` key separator. -/
def pcSourcesHyphenFree (relEdges : List RelationshipEdge) : Prop :=
  ∀ e ∈ relEdges, e.rtype = .parentChild → hyphenFree e.source

instance (relEdges : List RelationshipEdge) : Decidable (pcSourcesHyphenFree relEdges) := by
  unfold pcSourcesHyphenFree; infer_instance

/-- Every person id and spouse reference is free of the `'-'` key separator. -/
def idsHyphenFree (persons : List PersonData) : Prop :=
  ∀ p ∈ persons, hyphenFree p.id ∧ ∀ s ∈ p.spouseId.toList, hyphenFree s

instance (persons : List PersonData) : Decidable (idsHyphenFree persons) := by
  unfold idsHyphenFree; infer_instance

/-- Claim C5's root description, conjunct by conjunct. -/
def rootStatement (persons : List PersonData) (root : PersonData) : Prop :=
  (∀ r, (sortSiblings persons).find? (fun p => p.isRepresentative) = some r → root = r) ∧
  ((sortSiblings persons).find? (fun p => p.isRepresentative) = none →
    ∀ r, (sortSiblings persons).find? (fun p => p.relationship == "self") = some r →
      root = r) ∧
  ((sortSiblings persons).find? (fun p => p.isRepresentative) = none →
    (sortSiblings persons).find? (fun p => p.relationship == "self") = none →
    (sortSiblings persons).head? = some root)

/-- Claim C3's spacing relation between horizontally adjacent units: at least
the sibling gap between the left unit's right edge and the right unit's left
edge. -/
def rowGapOk (C : LayoutConsts) (u v : LUnit) : Prop :=
  u.centerX + u.width / 2 + C.siblingGap ≤ v.centerX - v.width / 2

/-! ## Spec-side description of the sibling order (for the C7 comparison) -/

/-- First occurrence of each key, in encounter order, skipping `seen`. -/
def firstKeys : List String → List String → List String
  | [], _ => []
  | k :: ks, seen => if k ∈ seen then firstKeys ks seen else k :: firstKeys ks (k :: seen)

/-- Modelled from the spec's words: the sibling-group keys "in
first-encountered order" over the people that have parents. -/
def groupKeysOf (persons : List PersonData) : List String :=
  firstKeys ((persons.filter (fun p => !p.parentIds.isEmpty)).map parentGroupKey) []

/-- Modelled from the spec's words (claim C7): "people with no parents come
first, sibling groups (people sharing the same sorted parentIds set) follow in
first-encountered order, and within each group members are ordered by the
explicit relationship-rank table ascending with lexicographic ID as
tie-break". -/
def specSiblingOrder (persons : List PersonData) : List PersonData :=
  persons.filter (fun p => p.parentIds.isEmpty) ++
    ((groupKeysOf persons).map (fun k =>
      (persons.filter (fun p => !p.parentIds.isEmpty && (parentGroupKey p == k))).insertionSort
        sibOrderRel)).flatten

/-! ## Proof-side characterizations (used only inside proofs) -/

/-- Members of the sibling group with key `k`. -/
def groupMembers (ps : List PersonData) (k : String) : List PersonData :=
  ps.filter (fun p => decide (p.parentIds.length > 0) && (parentGroupKey p == k))

/-- The group entries the grouping fold creates, keyed in first-encounter
order, skipping keys in `seen`. -/
def freshGroups : List PersonData → List String → List (String × List PersonData)
  | [], _ => []
  | p :: ps, seen =>
    if p.parentIds.length > 0 ∧ parentGroupKey p ∉ seen then
      (parentGroupKey p, p :: groupMembers ps (parentGroupKey p)) ::
        freshGroups ps (parentGroupKey p :: seen)
    else freshGroups ps seen

/-- The fresh keys the grouping fold appends, in order. -/
def freshKeysOf : List PersonData → List String → List String
  | [], _ => []
  | p :: ps, seen =>
    if p.parentIds.length > 0 ∧ parentGroupKey p ∉ seen then
      parentGroupKey p :: freshKeysOf ps (parentGroupKey p :: seen)
    else freshKeysOf ps seen

/-- Both lookups of a parent pair resolve to positions. -/
def pairResolved (positions : List (String × Pos)) (ps : List String) : Prop :=
  ∀ p ∈ ps, (alLookup positions p).isSome

instance (positions : List (String × Pos)) (ps : List String) :
    Decidable (pairResolved positions ps) := by unfold pairResolved; infer_instance

/-- Sum of the x coordinates of a pair's resolved positions (order-free form
of the junction midpoint numerator). -/
def pairXSum (positions : List (String × Pos)) (ps : List String) : ℚ :=
  (ps.filterMap (fun p => (alLookup positions p).map Pos.x)).sum

/-- The junction node a child entry creates, if it does. -/
def jNodeFor (positions : List (String × Pos)) (e : String × List String) :
    List JNode :=
  match e.2 with
  | [p0, p1] =>
    match alLookup positions p0, alLookup positions p1 with
    | some q0, some q1 =>
      [⟨"junction-" ++ pairKeyOf e.2, (q0.x + q1.x) / 2, max q0.y q1.y + 100⟩]
    | _, _ => []
  | _ => []

/-- The junction-to-child edge a child entry contributes, if any. -/
def jEdgeFor (positions : List (String × Pos)) (e : String × List String) :
    List FlowEdge :=
  if e.2.length = 2 ∧ pairResolved positions e.2 then
    [⟨"e-junction-" ++ pairKeyOf e.2 ++ "-" ++ e.1,
      "junction-" ++ pairKeyOf e.2, e.1, "smoothstep"⟩]
  else []

/-- Junction nodes of the first loop, characterised entry by entry. -/
def junctionNodesSpec (positions : List (String × Pos)) :
    List (String × List String) → List String → List JNode
  | [], _ => []
  | e :: rest, seen =>
    if e.2.length = 2 ∧ pairKeyOf e.2 ∉ seen ∧ pairResolved positions e.2 then
      jNodeFor positions e ++ junctionNodesSpec positions rest (pairKeyOf e.2 :: seen)
    else junctionNodesSpec positions rest seen

/-- The pair keys owning a junction after the first loop. -/
def seenAfter (positions : List (String × Pos)) :
    List (String × List String) → List String → List String
  | [], seen => seen
  | e :: rest, seen =>
    if e.2.length = 2 ∧ pairKeyOf e.2 ∉ seen ∧ pairResolved positions e.2 then
      seenAfter positions rest (pairKeyOf e.2 :: seen)
    else seenAfter positions rest seen

/-- Invariant of the junction-building loop after a prefix `done` of the
child-entry list has been processed (sound under hyphen-free parent ids). -/
structure JFoldInv (positions : List (String × Pos)) (done : List (String × List String))
    (st : JBuildState) : Prop where
  sj_iff : ∀ K, (alLookup st.spouseJunctions K).isSome ↔
    ∃ e ∈ done, e.2.length = 2 ∧ pairKeyOf e.2 = K ∧ pairResolved positions e.2
  sj_val : ∀ K jid, alLookup st.spouseJunctions K = some jid → jid = "junction-" ++ K
  node_count : ∀ K, (st.junctionNodes.filter (fun j => j.id == "junction-" ++ K)).length =
    if (alLookup st.spouseJunctions K).isSome then 1 else 0
  node_src : ∀ j ∈ st.junctionNodes, ∃ e ∈ done, e.2.length = 2 ∧
    pairResolved positions e.2 ∧ j.id = "junction-" ++ pairKeyOf e.2 ∧
    2 * j.x = pairXSum positions e.2
  edges_eq : st.edges = done.flatMap (jEdgeFor positions)

/-- The relationship fact behind a BFS discovery of `pid` from `srcId`. -/
def discFact (sorted : List PersonData) (srcId : String) (kind : DiscKind)
    (pid : String) : Prop :=
  match kind with
  | .parent => ∃ p ∈ sorted, p.id = srcId ∧ pid ∈ p.parentIds
  | .child => ∃ p ∈ sorted, p.id = pid ∧ srcId ∈ p.parentIds
  | .spouse => ∃ p ∈ sorted, p.id = srcId ∧ p.spouseId = some pid

/-- Invariant of the BFS loop: the root keeps generation 0, queued ids are
visited and have generations, and the ghost log is accurate about the
generation map and about the underlying person relations. -/
structure BfsInv (sorted : List PersonData) (rootId : String) (st : BfsState) : Prop where
  root_vis : rootId ∈ st.visited
  root_gen : alLookup st.gens rootId = some 0
  queue_vis : ∀ q ∈ st.queue, q ∈ st.visited
  queue_gens : ∀ q ∈ st.queue, (alLookup st.gens q).isSome
  log_vis : ∀ e ∈ st.log, e.disc ∈ st.visited ∧ e.srcP ∈ st.visited
  log_gens : ∀ e ∈ st.log, ∃ g, alLookup st.gens e.srcP = some g ∧
    alLookup st.gens e.disc = some (g + genOffset e.kind)
  log_rel : ∀ e ∈ st.log, discFact sorted e.srcP e.kind e.disc

/-! ## Concrete inputs for witnesses and counterexamples -/

/-- The sample family: self (representative), spouse, one son. -/
def sampleP : List PersonData :=
  [⟨"1", "self", true, [], some "2"⟩, ⟨"2", "spouse", false, [], some "1"⟩,
   ⟨"3", "eldest_son", false, ["1", "2"], none⟩]

/-- C2 counterexample input: `d` lists both its parent `c` and its grandparent
`a` in `parentIds`. -/
def cexC2Persons : List PersonData :=
  [⟨"a", "self", false, [], none⟩, ⟨"c", "other", false, ["a"], none⟩,
   ⟨"d", "other", false, ["a", "c"], none⟩]

/-- C6 counterexample input: `b` is simultaneously child of `a` and spouse of
`a`. -/
def cexC6Persons : List PersonData :=
  [⟨"a", "self", false, [], none⟩, ⟨"b", "other", false, ["a"], some "a"⟩]

/-- C2 witness input: the root has a resolvable parent `q`. -/
def wC2Persons : List PersonData :=
  [⟨"r", "self", false, ["q"], none⟩, ⟨"q", "mother", false, [], none⟩]

/-- C6/C9 witness input: a mutually linked couple. -/
def coupleP : List PersonData :=
  [⟨"h", "self", false, [], some "w"⟩, ⟨"w", "spouse", false, [], some "h"⟩]

/-- C9 counterexample input: the distinct spouse pairs `{a-b, c}` and
`{a, b-c}` share the sorted-join key `"a-b-c"`. -/
def cexC9Persons : List PersonData :=
  [⟨"a-b", "self", false, [], some "c"⟩, ⟨"c", "other", false, [], none⟩,
   ⟨"a", "other", false, [], some "b-c"⟩, ⟨"b-c", "other", false, [], none⟩]

/-- C8 failing input: `x` and `y` are married, `p` is single. -/
def c8Persons : List PersonData :=
  [⟨"x", "self", false, [], some "y"⟩, ⟨"y", "spouse", false, [], some "x"⟩,
   ⟨"p", "other", false, [], none⟩]

/-- C8 failing save: `p` now claims `x` as spouse. -/
def c8Updated : PersonData := ⟨"p", "other", false, [], some "x"⟩

/-- C1/C10 counterexample edges: child `u` of pair `{a-b, c}`, child `v` of
the distinct pair `{a, b-c}`; both pairs share the key `"a-b-c"`. -/
def cexJEdges : List RelationshipEdge :=
  [mkParentEdge "a-b" "u", mkParentEdge "c" "u",
    mkParentEdge "a" "v", mkParentEdge "b-c" "v"]

/-- C1 counterexample positions: all four parents positioned; the two pairs
have different midpoints (5 and 150). -/
def cexJPosC1 : List (String × Pos) :=
  [("a-b", ⟨0, 0⟩), ("c", ⟨10, 0⟩), ("a", ⟨100, 0⟩), ("b-c", ⟨200, 0⟩)]

/-- C10 counterexample positions: `v`'s parent `b-c` has no position. -/
def cexJPosC10 : List (String × Pos) :=
  [("a-b", ⟨0, 0⟩), ("c", ⟨10, 0⟩), ("a", ⟨4, 0⟩)]

/-- C1 witness input: one child of one hyphen-free positioned pair. -/
def wJEdges : List RelationshipEdge := [mkParentEdge "f" "k", mkParentEdge "m" "k"]

/-- C1 witness positions. -/
def wJPosC1 : List (String × Pos) := [("f", ⟨0, 0⟩), ("m", ⟨10, 0⟩)]

/-- C10 witness positions: parent `m` unpositioned. -/
def wJPosC10 : List (String × Pos) := [("f", ⟨0, 0⟩)]

/-- C7 witness input: daughter inserted before son, parents after. -/
def c7Persons : List PersonData :=
  [⟨"d2", "eldest_daughter", false, ["f", "m"], none⟩, ⟨"f", "father", false, [], none⟩,
   ⟨"d1", "eldest_son", false, ["m", "f"], none⟩, ⟨"m", "mother", false, [], none⟩]

/-- C7 counterexample input: two distinct persons share the id `"a"`. -/
def cexC7Persons : List PersonData :=
  [⟨"a", "eldest_daughter", false, ["p"], none⟩, ⟨"a", "eldest_son", false, ["p"], none⟩]

/-! ## Association-list lemmas -/

theorem alLookup_alSet_self {K α : Type} [DecidableEq K] (l : List (K × α)) (k : K)
    (v : α) : alLookup (alSet l k v) k = some v := by
  induction l with
  | nil => simp [alSet, alLookup]
  | cons e rest ih =>
    by_cases h : e.1 = k
    · simp [alSet, alLookup, h]
    · simpa [alSet, alLookup, h] using ih

theorem alLookup_alSet_ne {K α : Type} [DecidableEq K] (l : List (K × α)) (k k' : K)
    (v : α) (h : k ≠ k') : alLookup (alSet l k v) k' = alLookup l k' := by
  induction l with
  | nil => simp [alSet, alLookup, h]
  | cons e rest ih =>
    by_cases he : e.1 = k
    · simp [alSet, alLookup, he, h]
    · simp only [alSet, if_neg he, alLookup]
      by_cases he' : e.1 = k'
      · simp [he']
      · simpa [he'] using ih

theorem alLookup_isSome_iff {K α : Type} [DecidableEq K] (l : List (K × α)) (k : K) :
    (alLookup l k).isSome ↔ k ∈ alKeys l := by
  induction l with
  | nil => simp [alLookup, alKeys]
  | cons e rest ih =>
    by_cases he : e.1 = k
    · simp [alLookup, alKeys, he]
    · simp only [alLookup, if_neg he, alKeys, List.map_cons, List.mem_cons]
      rw [ih]
      simp only [alKeys]
      constructor
      · exact fun h => Or.inr h
      · rintro (h | h)
        · exact absurd h.symm he
        · exact h

theorem mem_alKeys_alSet {K α : Type} [DecidableEq K] (l : List (K × α)) (k k' : K)
    (v : α) : k' ∈ alKeys (alSet l k v) ↔ k' = k ∨ k' ∈ alKeys l := by
  rw [← alLookup_isSome_iff, ← alLookup_isSome_iff]
  by_cases h : k = k'
  · subst h
    simp [alLookup_alSet_self]
  · rw [alLookup_alSet_ne l k k' v h]
    simp [Ne.symm h]

theorem alLookup_mem {K α : Type} [DecidableEq K] {l : List (K × α)} {k : K} {v : α}
    (h : alLookup l k = some v) : (k, v) ∈ l := by
  induction l with
  | nil => simp [alLookup] at h
  | cons e rest ih =>
    by_cases he : e.1 = k
    · simp only [alLookup, if_pos he] at h
      obtain ⟨k1, v1⟩ := e
      simp only at he
      subst he
      simp only [Option.some.injEq] at h
      subst h
      exact List.mem_cons_self _ _
    · simp only [alLookup, if_neg he] at h
      exact List.mem_cons_of_mem _ (ih h)

/-! ## C4: determinism of the pipeline -/

/-- Claim C4: for a fixed person list and fixed layout constants, two
invocations of the whole pipeline (sibling sort, generation assignment, unit
placement, position finalization, edge generation, connector building) return
identical position maps, edge lists, and junction-node lists. -/
theorem layoutPipeline_deterministic (C : LayoutConsts) (p1 p2 : List PersonData)
    (h : p1 = p2) : layoutPipeline C p1 = layoutPipeline C p2 := by
  rw [h]

/-- Witness for C4 at the sample family. -/
theorem layoutPipeline_deterministic_witness :
    layoutPipeline desktopConsts sampleP = layoutPipeline desktopConsts sampleP :=
  layoutPipeline_deterministic desktopConsts sampleP sampleP rfl

/-! ## C8: the save handler does not keep the spouse relation symmetric -/

/-- Claim C8 (code bug): saving `p` with spouse `x` against a symmetric list
where `x` is married to `y` leaves `y.spouseId = x` while `x.spouseId = p`:
the handler never clears the new partner's previous partner, contradicting its
own stated bidirectional synchronisation. -/
theorem handleSavePerson_breaks_spouse_symmetry :
    spouseSymmetric c8Persons ∧
      ¬ spouseSymmetric (handleSavePerson c8Persons c8Updated) := by
  constructor
  · decide
  · decide

/-! ## C2 and C6: the as-stated generation invariants fail -/

/-- Counterexample to claim C2 as stated: in `cexC2Persons`, `d` lists its
parent `c`, both are reached, but generation(c) = 1 = generation(d). -/
theorem C2_counterexample : ¬ C2Statement cexC2Persons := by decide

/-- Counterexample to claim C6 as stated: in `cexC6Persons`, `b.spouseId = a`,
both are reached, but generation(b) = 1 while generation(a) = 0. -/
theorem C6_counterexample : ¬ C6Statement cexC6Persons := by decide

/-! ## BFS invariants -/

theorem foldl_alSet_lookup {sorted : List PersonData} :
    ∀ (m0 : List (String × PersonData)) {i : String} {p : PersonData},
      alLookup (sorted.foldl (fun m q => alSet m q.id q) m0) i = some p →
      (p ∈ sorted ∧ p.id = i) ∨ alLookup m0 i = some p := by
  induction sorted with
  | nil => intro m0 i p h; exact Or.inr h
  | cons q rest ih =>
    intro m0 i p h
    rcases ih (alSet m0 q.id q) h with h1 | h1
    · exact Or.inl ⟨List.mem_cons_of_mem _ h1.1, h1.2⟩
    · by_cases hq : q.id = i
      · rw [← hq, alLookup_alSet_self] at h1
        cases h1
        exact Or.inl ⟨List.mem_cons_self _ _, hq⟩
      · rw [alLookup_alSet_ne _ _ _ _ hq] at h1
        exact Or.inr h1

theorem personMapOf_lookup {sorted : List PersonData} {i : String} {p : PersonData}
    (h : alLookup (personMapOf sorted) i = some p) : p ∈ sorted ∧ p.id = i := by
  rcases foldl_alSet_lookup [] h with h1 | h1
  · exact h1
  · simp [alLookup] at h1

/-- What it means for a parent-to-children map to be derived from `sorted`. -/
theorem childrenOf_fold_good (sorted : List PersonData) :
    ∀ (l : List PersonData) (m : List (String × List String)),
      (∀ x ∈ l, x ∈ sorted) →
      (∀ pid cids, alLookup m pid = some cids → ∀ cid ∈ cids,
        ∃ p ∈ sorted, p.id = cid ∧ pid ∈ p.parentIds) →
      ∀ pid cids,
        alLookup
          (l.foldl (fun m' p =>
            p.parentIds.foldl
              (fun m'' pid' => alSet m'' pid' ((alLookup m'' pid').getD [] ++ [p.id])) m') m)
          pid = some cids →
        ∀ cid ∈ cids, ∃ p ∈ sorted, p.id = cid ∧ pid ∈ p.parentIds := by
  intro l
  induction l with
  | nil => intro m _ hm pid cids h cid hc; exact hm pid cids h cid hc
  | cons p rest ih =>
    intro m hl hm pid cids h cid hc
    refine ih _ (fun x hx => hl x (List.mem_cons_of_mem _ hx)) ?_ pid cids h cid hc
    -- the inner fold over p.parentIds preserves the property
    have hp : p ∈ sorted := hl p (List.mem_cons_self _ _)
    clear h hc ih
    have : ∀ (pids : List String) (m' : List (String × List String)),
        (∀ x ∈ pids, x ∈ p.parentIds) →
        (∀ pid cids, alLookup m' pid = some cids → ∀ cid ∈ cids,
          ∃ q ∈ sorted, q.id = cid ∧ pid ∈ q.parentIds) →
        ∀ pid cids,
          alLookup
            (pids.foldl
              (fun m'' pid' => alSet m'' pid' ((alLookup m'' pid').getD [] ++ [p.id])) m')
            pid = some cids →
          ∀ cid ∈ cids, ∃ q ∈ sorted, q.id = cid ∧ pid ∈ q.parentIds := by
      intro pids
      induction pids with
      | nil => intro m' _ hm' pid cids h cid hc; exact hm' pid cids h cid hc
      | cons x xs ihx =>
        intro m' hxs hm' pid cids h cid hc
        refine ihx _ (fun y hy => hxs y (List.mem_cons_of_mem _ hy)) ?_ pid cids h cid hc
        intro pid1 cids1 h1 cid1 hc1
        by_cases hx : x = pid1
        · subst hx
          rw [alLookup_alSet_self] at h1
          cases h1
          rcases List.mem_append.mp hc1 with hold | hnew
          · cases hcase : alLookup m' x with
            | none => rw [hcase] at hold; simp at hold
            | some old =>
              rw [hcase] at hold
              exact hm' x old hcase cid1 hold
          · have : cid1 = p.id := by simpa using hnew
            exact ⟨p, hp, this.symm, hxs x (List.mem_cons_self _ _)⟩
        · rw [alLookup_alSet_ne _ _ _ _ hx] at h1
          exact hm' pid1 cids1 h1 cid1 hc1
    exact this p.parentIds m (fun x hx => hx) hm

theorem childrenOfMap_mem {sorted : List PersonData} {pid : String} {cids : List String}
    {cid : String} (h : alLookup (childrenOfMap sorted) pid = some cids)
    (hc : cid ∈ cids) : ∃ p ∈ sorted, p.id = cid ∧ pid ∈ p.parentIds := by
  refine childrenOf_fold_good sorted sorted [] (fun x hx => hx) ?_ pid cids h cid hc
  intro pid cids h
  simp [alLookup] at h

theorem visitStep_inv {sorted : List PersonData} {rootId srcId pid : String}
    {kind : DiscKind} {g0 gv : Int} {st : BfsState} (pm : List (String × PersonData))
    (hgv : gv = g0 + genOffset kind)
    (inv : BfsInv sorted rootId st) (hsrc : srcId ∈ st.visited)
    (hg : alLookup st.gens srcId = some g0)
    (hfact : discFact sorted srcId kind pid) :
    BfsInv sorted rootId (visitStep pm gv srcId kind st pid) ∧
      srcId ∈ (visitStep pm gv srcId kind st pid).visited ∧
      alLookup (visitStep pm gv srcId kind st pid).gens srcId = some g0 := by
  unfold visitStep
  by_cases hc : pid ∉ st.visited ∧ (alLookup pm pid).isSome
  · rw [if_pos hc]
    have hpid : pid ∉ st.visited := hc.1
    have hne : ∀ k, k ∈ st.visited → pid ≠ k := fun k hk he => hpid (he ▸ hk)
    refine ⟨⟨?_, ?_, ?_, ?_, ?_, ?_, ?_⟩, ?_, ?_⟩
    · exact List.mem_append_left _ inv.root_vis
    · rw [alLookup_alSet_ne _ _ _ _ (hne _ inv.root_vis)]; exact inv.root_gen
    · intro q hq
      rcases List.mem_append.mp hq with h1 | h1
      · exact List.mem_append_left _ (inv.queue_vis q h1)
      · have : q = pid := by simpa using h1
        subst this
        exact List.mem_append_right _ (by simp)
    · intro q hq
      rcases List.mem_append.mp hq with h1 | h1
      · rw [alLookup_alSet_ne _ _ _ _ (hne _ (inv.queue_vis q h1))]
        exact inv.queue_gens q h1
      · have : q = pid := by simpa using h1
        subst this
        rw [alLookup_alSet_self]; rfl
    · intro e he
      rcases List.mem_append.mp he with h1 | h1
      · exact ⟨List.mem_append_left _ (inv.log_vis e h1).1,
          List.mem_append_left _ (inv.log_vis e h1).2⟩
      · have : e = ⟨pid, srcId, kind⟩ := by simpa using h1
        subst this
        exact ⟨List.mem_append_right _ (by simp), List.mem_append_left _ hsrc⟩
    · intro e he
      rcases List.mem_append.mp he with h1 | h1
      · obtain ⟨g, hg1, hg2⟩ := inv.log_gens e h1
        refine ⟨g, ?_, ?_⟩
        · rw [alLookup_alSet_ne _ _ _ _ (hne _ (inv.log_vis e h1).2)]; exact hg1
        · rw [alLookup_alSet_ne _ _ _ _ (hne _ (inv.log_vis e h1).1)]; exact hg2
      · have : e = ⟨pid, srcId, kind⟩ := by simpa using h1
        subst this
        refine ⟨g0, ?_, ?_⟩
        · rw [alLookup_alSet_ne _ _ _ _ (hne _ hsrc)]; exact hg
        · rw [alLookup_alSet_self, hgv]
    · intro e he
      rcases List.mem_append.mp he with h1 | h1
      · exact inv.log_rel e h1
      · have : e = ⟨pid, srcId, kind⟩ := by simpa using h1
        subst this
        exact hfact
    · exact List.mem_append_left _ hsrc
    · rw [alLookup_alSet_ne _ _ _ _ (hne _ hsrc)]; exact hg
  · rw [if_neg hc]
    exact ⟨inv, hsrc, hg⟩

theorem visitFold_inv (sorted : List PersonData) (rootId srcId : String)
    (kind : DiscKind) (g0 gv : Int) (pm : List (String × PersonData))
    (hgv : gv = g0 + genOffset kind) :
    ∀ (pids : List String) (st : BfsState), BfsInv sorted rootId st →
      srcId ∈ st.visited → alLookup st.gens srcId = some g0 →
      (∀ x ∈ pids, discFact sorted srcId kind x) →
      BfsInv sorted rootId (pids.foldl (visitStep pm gv srcId kind) st) ∧
        srcId ∈ (pids.foldl (visitStep pm gv srcId kind) st).visited ∧
        alLookup (pids.foldl (visitStep pm gv srcId kind) st).gens srcId = some g0 := by
  intro pids
  induction pids with
  | nil => intro st inv hsrc hg _; exact ⟨inv, hsrc, hg⟩
  | cons x xs ih =>
    intro st inv hsrc hg hfacts
    obtain ⟨inv1, hsrc1, hg1⟩ :=
      visitStep_inv pm hgv inv hsrc hg (hfacts x (List.mem_cons_self _ _))
    exact ih _ inv1 hsrc1 hg1 (fun y hy => hfacts y (List.mem_cons_of_mem _ hy))

theorem processPerson_inv (sorted : List PersonData) (rootId currentId : String)
    (st : BfsState) (inv : BfsInv sorted rootId st) (hvis : currentId ∈ st.visited)
    (hgen : (alLookup st.gens currentId).isSome) :
    BfsInv sorted rootId
      (processPerson (personMapOf sorted) (childrenOfMap sorted) st currentId) := by
  obtain ⟨g, hg⟩ := Option.isSome_iff_exists.mp hgen
  cases hcur : alLookup (personMapOf sorted) currentId with
  | none =>
    simp only [processPerson, hcur]
    exact inv
  | some current =>
    obtain ⟨hmem, hid⟩ := personMapOf_lookup hcur
    simp only [processPerson, hcur, hg, Option.getD_some]
    have hfold1 := visitFold_inv sorted rootId currentId .parent g (g - 1)
      (personMapOf sorted) (by simp [genOffset, sub_eq_add_neg]) current.parentIds st
      inv hvis hg (fun x hx => ⟨current, hmem, hid, hx⟩)
    obtain ⟨inv1, hsrc1, hg1⟩ := hfold1
    have hfacts2 : ∀ x ∈ (alLookup (childrenOfMap sorted) currentId).getD [],
        discFact sorted currentId .child x := by
      intro x hx
      cases hch : alLookup (childrenOfMap sorted) currentId with
      | none => rw [hch] at hx; simp at hx
      | some cids =>
        rw [hch] at hx
        simp only [Option.getD_some] at hx
        exact childrenOfMap_mem hch hx
    have hfold2 := visitFold_inv sorted rootId currentId .child g (g + 1)
      (personMapOf sorted) (by simp [genOffset])
      ((alLookup (childrenOfMap sorted) currentId).getD []) _ inv1 hsrc1 hg1 hfacts2
    obtain ⟨inv2, hsrc2, hg2⟩ := hfold2
    cases hsp : current.spouseId with
    | none => simp only [hsp]; exact inv2
    | some sid =>
      simp only [hsp]
      have hstep := visitStep_inv (personMapOf sorted)
        (show g = g + genOffset .spouse by simp [genOffset]) inv2 hsrc2 hg2
        (show discFact sorted currentId .spouse sid from ⟨current, hmem, hid, hsp⟩)
      exact hstep.1

theorem bfsGo_inv (sorted : List PersonData) (rootId : String) :
    ∀ (fuel : Nat) (st : BfsState), BfsInv sorted rootId st →
      BfsInv sorted rootId (bfsGo (personMapOf sorted) (childrenOfMap sorted) fuel st) := by
  intro fuel
  induction fuel with
  | zero => intro st inv; exact inv
  | succ n ih =>
    intro st inv
    unfold bfsGo
    cases hq : st.queue with
    | nil => exact inv
    | cons c rest =>
      simp only []
      have hcv : c ∈ st.visited := inv.queue_vis c (by rw [hq]; exact List.mem_cons_self _ _)
      have hcg : (alLookup st.gens c).isSome :=
        inv.queue_gens c (by rw [hq]; exact List.mem_cons_self _ _)
      have inv' : BfsInv sorted rootId ⟨st.gens, st.visited, rest, st.log⟩ :=
        ⟨inv.root_vis, inv.root_gen,
          fun q hq' => inv.queue_vis q (by rw [hq]; exact List.mem_cons_of_mem _ hq'),
          fun q hq' => inv.queue_gens q (by rw [hq]; exact List.mem_cons_of_mem _ hq'),
          inv.log_vis, inv.log_gens, inv.log_rel⟩
      exact ih _ (processPerson_inv sorted rootId c _ inv' hcv hcg)

theorem bfsInit_inv (sorted : List PersonData) (root : PersonData) :
    BfsInv sorted root.id (bfsInit root) := by
  refine ⟨?_, ?_, ?_, ?_, ?_, ?_, ?_⟩
  · simp [bfsInit]
  · simp [bfsInit, alLookup]
  · intro q hq
    simpa [bfsInit] using hq
  · intro q hq
    simp [bfsInit] at hq
    subst hq
    simp [bfsInit, alLookup]
  · intro e he
    simp [bfsInit] at he
  · intro e he
    simp [bfsInit] at he
  · intro e he
    simp [bfsInit] at he

theorem fillDefaultGens_cons (p : PersonData) (rest : List PersonData)
    (gens : List (String × Int)) :
    fillDefaultGens (p :: rest) gens =
      fillDefaultGens rest
        (if (alLookup gens p.id).isSome then gens else alSet gens p.id 0) := rfl

theorem fillDefaultGens_preserve {k : String} :
    ∀ (sorted : List PersonData) (gens : List (String × Int)),
      (alLookup gens k).isSome →
      alLookup (fillDefaultGens sorted gens) k = alLookup gens k := by
  intro sorted
  induction sorted with
  | nil => intro gens _; rfl
  | cons p rest ih =>
    intro gens hk
    rw [fillDefaultGens_cons]
    by_cases hp : (alLookup gens p.id).isSome
    · rw [if_pos hp]
      exact ih gens hk
    · rw [if_neg hp]
      have hne : p.id ≠ k := by
        intro he
        rw [he] at hp
        exact hp hk
      have hpres : alLookup (alSet gens p.id 0) k = alLookup gens k :=
        alLookup_alSet_ne _ _ _ _ hne
      rw [ih (alSet gens p.id 0) (by rw [hpres]; exact hk), hpres]

theorem bfsRun_inv {persons : List PersonData} {root : PersonData} {st : BfsState}
    (hr : chooseRoot (sortSiblings persons) = some root)
    (hs : bfsRun (sortSiblings persons) = some st) :
    BfsInv (sortSiblings persons) root.id st := by
  unfold bfsRun at hs
  rw [hr] at hs
  simp only [Option.map_some', Option.some.injEq] at hs
  rw [← hs]
  exact bfsGo_inv _ _ _ _ (bfsInit_inv _ _)

theorem sortSiblings_perm (persons : List PersonData) :
    (sortSiblings persons).Perm persons :=
  List.perm_insertionSort _ _

/-! ## C2 and C6, amended: the generation offsets hold along discovery links -/

/-- Claim C2 (amended): for a person P with a parent id Q resolvable in the
list, generation(Q) = generation(P) − 1 holds whenever the BFS discovered Q
from P along P's parent link, or P from Q along the child index — that is,
along the link itself; reaching both through other paths (as in the
counterexample) is not enough. -/
theorem C2_generation_of_discovery (persons : List PersonData) (entry : DiscEntry)
    (h : entry ∈ bfsLogOf persons) :
    (entry.kind = .parent →
      (∃ p ∈ persons, p.id = entry.srcP ∧ entry.disc ∈ p.parentIds) ∧
      ∃ g, alLookup (generationMapOf persons) entry.srcP = some g ∧
        alLookup (generationMapOf persons) entry.disc = some (g - 1)) ∧
    (entry.kind = .child →
      (∃ p ∈ persons, p.id = entry.disc ∧ entry.srcP ∈ p.parentIds) ∧
      ∃ g, alLookup (generationMapOf persons) entry.disc = some g ∧
        alLookup (generationMapOf persons) entry.srcP = some (g - 1)) := by
  cases hrun : bfsRun (sortSiblings persons) with
  | none =>
    unfold bfsLogOf at h
    rw [hrun] at h
    simp at h
  | some st =>
    unfold bfsLogOf at h
    rw [hrun] at h
    simp only at h
    have hcr : ∃ root, chooseRoot (sortSiblings persons) = some root := by
      unfold bfsRun at hrun
      cases hc : chooseRoot (sortSiblings persons) with
      | none => rw [hc] at hrun; simp at hrun
      | some root => exact ⟨root, rfl⟩
    obtain ⟨root, hcr⟩ := hcr
    have inv := bfsRun_inv hcr hrun
    obtain ⟨g, hsrc, hdisc⟩ := inv.log_gens entry h
    have hrel := inv.log_rel entry h
    have hmap : generationMapOf persons = fillDefaultGens (sortSiblings persons) st.gens := by
      unfold generationMapOf
      rw [hrun]
    have hsrc' : alLookup (generationMapOf persons) entry.srcP = some g := by
      rw [hmap, fillDefaultGens_preserve _ _ (by rw [hsrc]; rfl)]
      exact hsrc
    have hdisc' : alLookup (generationMapOf persons) entry.disc =
        some (g + genOffset entry.kind) := by
      rw [hmap, fillDefaultGens_preserve _ _ (by rw [hdisc]; rfl)]
      exact hdisc
    constructor
    · intro hk
      rw [hk] at hrel hdisc'
      unfold discFact at hrel
      obtain ⟨p, hp, hrel⟩ := hrel
      have hoff : g + genOffset DiscKind.parent = g - 1 := by
        simp only [genOffset]
        omega
      refine ⟨⟨p, (sortSiblings_perm persons).mem_iff.mp hp, hrel⟩, g, hsrc', ?_⟩
      rw [hdisc', hoff]
    · intro hk
      rw [hk] at hrel hdisc'
      unfold discFact at hrel
      obtain ⟨p, hp, hrel⟩ := hrel
      have hoff : g + genOffset DiscKind.child = g + 1 := by
        simp only [genOffset]
      have hoff2 : g = g + 1 - 1 := by omega
      refine ⟨⟨p, (sortSiblings_perm persons).mem_iff.mp hp, hrel⟩, g + 1, ?_, ?_⟩
      · rw [hdisc', hoff]
      · rw [hsrc']
        rw [← hoff2]

/-- Witness for the amended C2 on a root with a resolvable parent. -/
theorem C2_generation_of_discovery_witness :
    (⟨"q", "r", .parent⟩ : DiscEntry) ∈ bfsLogOf wC2Persons ∧
      ((∃ p ∈ wC2Persons, p.id = "r" ∧ "q" ∈ p.parentIds) ∧
        ∃ g, alLookup (generationMapOf wC2Persons) "r" = some g ∧
          alLookup (generationMapOf wC2Persons) "q" = some (g - 1)) := by
  refine ⟨by decide, ?_⟩
  exact (C2_generation_of_discovery wC2Persons ⟨"q", "r", .parent⟩ (by decide)).1 rfl

/-- Claim C6 (amended): spouses get the same generation whenever the spouse
was discovered through the spouse link itself; reaching both through other
paths (as in the counterexample) is not enough. -/
theorem C6_generation_of_discovery (persons : List PersonData) (entry : DiscEntry)
    (h : entry ∈ bfsLogOf persons) (hk : entry.kind = .spouse) :
    (∃ p ∈ persons, p.id = entry.srcP ∧ p.spouseId = some entry.disc) ∧
      ∃ g, alLookup (generationMapOf persons) entry.srcP = some g ∧
        alLookup (generationMapOf persons) entry.disc = some g := by
  cases hrun : bfsRun (sortSiblings persons) with
  | none =>
    unfold bfsLogOf at h
    rw [hrun] at h
    simp at h
  | some st =>
    unfold bfsLogOf at h
    rw [hrun] at h
    simp only at h
    have hcr : ∃ root, chooseRoot (sortSiblings persons) = some root := by
      unfold bfsRun at hrun
      cases hc : chooseRoot (sortSiblings persons) with
      | none => rw [hc] at hrun; simp at hrun
      | some root => exact ⟨root, rfl⟩
    obtain ⟨root, hcr⟩ := hcr
    have inv := bfsRun_inv hcr hrun
    obtain ⟨g, hsrc, hdisc⟩ := inv.log_gens entry h
    have hrel := inv.log_rel entry h
    rw [hk] at hrel hdisc
    unfold discFact at hrel
    obtain ⟨p, hp, hrel⟩ := hrel
    have hmap : generationMapOf persons = fillDefaultGens (sortSiblings persons) st.gens := by
      unfold generationMapOf
      rw [hrun]
    refine ⟨⟨p, (sortSiblings_perm persons).mem_iff.mp hp, hrel⟩, g, ?_, ?_⟩
    · rw [hmap, fillDefaultGens_preserve _ _ (by rw [hsrc]; rfl)]
      exact hsrc
    · have hoff : g + genOffset DiscKind.spouse = g := by
        simp only [genOffset]
        omega
      rw [hmap, fillDefaultGens_preserve _ _ (by rw [hdisc]; rfl)]
      rw [hdisc, hoff]

/-- Witness for the amended C6 on a mutually linked couple. -/
theorem C6_generation_of_discovery_witness :
    (⟨"w", "h", .spouse⟩ : DiscEntry) ∈ bfsLogOf coupleP ∧
      ((∃ p ∈ coupleP, p.id = "h" ∧ p.spouseId = some "w") ∧
        ∃ g, alLookup (generationMapOf coupleP) "h" = some g ∧
          alLookup (generationMapOf coupleP) "w" = some g) := by
  refine ⟨by decide, ?_⟩
  exact C6_generation_of_discovery coupleP ⟨"w", "h", .spouse⟩ (by decide) rfl

/-! ## C5: root selection and root generation -/

theorem generationMap_root_zero {persons : List PersonData} {root : PersonData}
    (hr : chooseRoot (sortSiblings persons) = some root) :
    alLookup (generationMapOf persons) root.id = some 0 := by
  have hrun : bfsRun (sortSiblings persons) =
      some (bfsGo (personMapOf (sortSiblings persons))
        (childrenOfMap (sortSiblings persons)) (sortSiblings persons).length
        (bfsInit root)) := by
    unfold bfsRun
    rw [hr]
    rfl
  have inv := bfsRun_inv hr hrun
  unfold generationMapOf
  rw [hrun]
  simp only
  rw [fillDefaultGens_preserve _ _ (by rw [inv.root_gen]; rfl)]
  exact inv.root_gen

/-- Claim C5: on a nonempty list the layout picks as root the first
sibling-sorted person with the representative flag, else the first with
relationship self, else the first of the sorted list, and that root's final
generation entry is 0. -/
theorem C5_root_selection (persons : List PersonData) (h : persons ≠ []) :
    ∃ root, chooseRoot (sortSiblings persons) = some root ∧
      rootStatement persons root ∧
      alLookup (generationMapOf persons) root.id = some 0 := by
  have hs : sortSiblings persons ≠ [] := by
    intro he
    have hp := sortSiblings_perm persons
    rw [he] at hp
    exact h hp.symm.eq_nil
  cases h1 : (sortSiblings persons).find? (fun p => p.isRepresentative) with
  | some r =>
    have hcr : chooseRoot (sortSiblings persons) = some r := by
      simp [chooseRoot, h1, Option.orElse]
    refine ⟨r, hcr, ⟨?_, ?_, ?_⟩, generationMap_root_zero hcr⟩
    · intro r' hr'
      rw [h1] at hr'
      cases hr'
      rfl
    · intro hn
      rw [h1] at hn
      cases hn
    · intro hn
      rw [h1] at hn
      cases hn
  | none =>
    cases h2 : (sortSiblings persons).find? (fun p => p.relationship == "self") with
    | some r =>
      have hcr : chooseRoot (sortSiblings persons) = some r := by
        simp [chooseRoot, h1, h2, Option.orElse]
      refine ⟨r, hcr, ⟨?_, ?_, ?_⟩, generationMap_root_zero hcr⟩
      · intro r' hr'
        rw [h1] at hr'
        cases hr'
      · intro _ r' hr'
        rw [h2] at hr'
        cases hr'
        rfl
      · intro _ hn
        rw [h2] at hn
        cases hn
    | none =>
      have hh : ∃ a, (sortSiblings persons).head? = some a := by
        cases hl : sortSiblings persons with
        | nil => exact absurd hl hs
        | cons a l => exact ⟨a, rfl⟩
      obtain ⟨a, hh⟩ := hh
      have hcr : chooseRoot (sortSiblings persons) = some a := by
        simp [chooseRoot, h1, h2, hh, Option.orElse]
      refine ⟨a, hcr, ⟨?_, ?_, ?_⟩, generationMap_root_zero hcr⟩
      · intro r' hr'
        rw [h1] at hr'
        cases hr'
      · intro _ r' hr'
        rw [h2] at hr'
        cases hr'
      · intro _ _
        exact hh

/-- Witness for C5 on the sample family (whose representative is person 1). -/
theorem C5_root_selection_witness :
    ∃ root, chooseRoot (sortSiblings sampleP) = some root ∧
      rootStatement sampleP root ∧
      alLookup (generationMapOf sampleP) root.id = some 0 :=
  C5_root_selection sampleP (by decide)

/-! ## C3: minimum spacing between adjacent units of every row -/

theorem sweepUnits_chain (C : LayoutConsts) :
    ∀ (rest : List LUnit) (prev : LUnit),
      List.Chain' (rowGapOk C) (prev :: sweepUnits C prev rest) := by
  intro rest
  induction rest with
  | nil => intro prev; simp [sweepUnits]
  | cons v vs ih =>
    intro prev
    show List.Chain' (rowGapOk C) (prev ::
      (if v.centerX < prev.centerX + prev.width / 2 + C.siblingGap + v.width / 2 then
        { v with centerX := prev.centerX + prev.width / 2 + C.siblingGap + v.width / 2 }
      else v) ::
      sweepUnits C
        (if v.centerX < prev.centerX + prev.width / 2 + C.siblingGap + v.width / 2 then
          { v with centerX := prev.centerX + prev.width / 2 + C.siblingGap + v.width / 2 }
        else v) vs)
    rw [List.chain'_cons]
    constructor
    · by_cases h : v.centerX < prev.centerX + prev.width / 2 + C.siblingGap + v.width / 2
      · rw [if_pos h]
        show prev.centerX + prev.width / 2 + C.siblingGap ≤
          (prev.centerX + prev.width / 2 + C.siblingGap + v.width / 2) - v.width / 2
        linarith
      · rw [if_neg h]
        show prev.centerX + prev.width / 2 + C.siblingGap ≤ v.centerX - v.width / 2
        linarith [not_lt.mp h]
    · exact ih _

theorem resolveOverlap_chain (C : LayoutConsts) (units : List LUnit) :
    List.Chain' (rowGapOk C) (resolveOverlap C units) := by
  unfold resolveOverlap
  cases h : units.insertionSort unitCenterLe with
  | nil => simp
  | cons u rest => exact sweepUnits_chain C rest u

theorem placeGo_false_chain (C : LayoutConsts) :
    ∀ (units : List LUnit) (x : ℚ),
      List.Chain' (rowGapOk C) (placeGo C false x units).1 ∧
      (∀ u0 ∈ (placeGo C false x units).1.head?, u0.centerX - u0.width / 2 = x + C.siblingGap) := by
  intro units
  induction units with
  | nil => intro x; simp [placeGo]
  | cons u rest ih =>
    intro x
    have heq : placeGo C false x (u :: rest) =
        ({ u with centerX := (x + C.siblingGap) + u.width / 2 } ::
          (placeGo C false ((x + C.siblingGap) + u.width) rest).1,
         (placeGo C false ((x + C.siblingGap) + u.width) rest).2) := rfl
    rw [heq]
    constructor
    · rw [List.chain'_cons']
      refine ⟨?_, (ih ((x + C.siblingGap) + u.width)).1⟩
      intro b hb
      have hh := (ih ((x + C.siblingGap) + u.width)).2 b hb
      show ({ u with centerX := (x + C.siblingGap) + u.width / 2 }).centerX +
        ({ u with centerX := (x + C.siblingGap) + u.width / 2 }).width / 2 + C.siblingGap ≤
        b.centerX - b.width / 2
      simp only
      linarith [hh]
    · intro u0 hu0
      simp only [List.head?_cons, Option.mem_def, Option.some.injEq] at hu0
      rw [← hu0]
      simp only
      ring

theorem placeUnits_chain (C : LayoutConsts) (units : List LUnit) :
    List.Chain' (rowGapOk C) (placeUnits C units) := by
  unfold placeUnits
  rw [List.chain'_map]
  have hiff : ∀ (t : ℚ) (a b : LUnit),
      rowGapOk C { a with centerX := a.centerX - t } { b with centerX := b.centerX - t } ↔
        rowGapOk C a b := by
    intro t a b
    unfold rowGapOk
    simp only
    constructor <;> intro h <;> linarith
  have hmain : List.Chain' (rowGapOk C) (placeGo C true 0 units).1 := by
    cases units with
    | nil => simp [placeGo]
    | cons u rest =>
      show List.Chain' (rowGapOk C)
        ({ u with centerX := 0 + u.width / 2 } :: (placeGo C false (0 + u.width) rest).1)
      rw [List.chain'_cons']
      refine ⟨?_, (placeGo_false_chain C rest (0 + u.width)).1⟩
      intro b hb
      have hh := (placeGo_false_chain C rest (0 + u.width)).2 b hb
      show ({ u with centerX := 0 + u.width / 2 }).centerX +
        ({ u with centerX := 0 + u.width / 2 }).width / 2 + C.siblingGap ≤
        b.centerX - b.width / 2
      simp only
      linarith [hh]
  refine List.Chain'.imp ?_ hmain
  intro a b h
  exact (hiff _ a b).mpr h

theorem sweepUnits_width (C : LayoutConsts) :
    ∀ (l : List LUnit) (prev : LUnit) (u' : LUnit), u' ∈ sweepUnits C prev l →
      ∃ u ∈ l, u'.width = u.width := by
  intro l
  induction l with
  | nil => intro prev u' h; simp [sweepUnits] at h
  | cons v vs ih =>
    intro prev u' h
    unfold sweepUnits at h
    rcases List.mem_cons.mp h with h1 | h1
    · refine ⟨v, List.mem_cons_self _ _, ?_⟩
      rw [h1]
      by_cases hc : v.centerX < prev.centerX + prev.width / 2 + C.siblingGap + v.width / 2
      · rw [if_pos hc]
      · rw [if_neg hc]
    · obtain ⟨u, hu, he⟩ := ih _ _ h1
      exact ⟨u, List.mem_cons_of_mem _ hu, he⟩

theorem resolveOverlap_width (C : LayoutConsts) (units : List LUnit) (u' : LUnit)
    (h : u' ∈ resolveOverlap C units) : ∃ u ∈ units, u'.width = u.width := by
  unfold resolveOverlap at h
  cases hs : units.insertionSort unitCenterLe with
  | nil => rw [hs] at h; simp at h
  | cons a rest =>
    rw [hs] at h
    have hperm : (a :: rest).Perm units := by
      rw [← hs]
      exact List.perm_insertionSort _ _
    rcases List.mem_cons.mp h with h1 | h1
    · exact ⟨u', hperm.mem_iff.mp (by rw [h1]; exact List.mem_cons_self _ _), rfl⟩
    · obtain ⟨u, hu, he⟩ := sweepUnits_width C rest a u' h1
      exact ⟨u, hperm.mem_iff.mp (List.mem_cons_of_mem _ hu), he⟩

theorem placeGo_width (C : LayoutConsts) :
    ∀ (units : List LUnit) (fst : Bool) (x : ℚ) (u' : LUnit),
      u' ∈ (placeGo C fst x units).1 → ∃ u ∈ units, u'.width = u.width := by
  intro units
  induction units with
  | nil => intro fst x u' h; simp [placeGo] at h
  | cons u rest ih =>
    intro fst x u' h
    unfold placeGo at h
    simp only [List.mem_cons] at h
    rcases h with h1 | h1
    · exact ⟨u, List.mem_cons_self _ _, by rw [h1]⟩
    · obtain ⟨w, hw, he⟩ := ih false _ u' h1
      exact ⟨w, List.mem_cons_of_mem _ hw, he⟩

theorem placeUnits_width (C : LayoutConsts) (units : List LUnit) (u' : LUnit)
    (h : u' ∈ placeUnits C units) : ∃ u ∈ units, u'.width = u.width := by
  unfold placeUnits at h
  obtain ⟨v, hv, he⟩ := List.mem_map.mp h
  obtain ⟨u, hu, he2⟩ := placeGo_width C units true 0 v hv
  exact ⟨u, hu, by rw [← he]; exact he2⟩

theorem buildUnits_width (C : LayoutConsts) (hW : 0 ≤ C.nodeWidth) (hS : 0 ≤ C.spouseGap)
    (sp : List (String × String)) (gp : List PersonData) :
    ∀ u ∈ buildUnits C sp gp, 0 ≤ u.width := by
  unfold buildUnits
  have hstep : ∀ (l : List PersonData) (acc : List LUnit × List String),
      (∀ u ∈ acc.1, 0 ≤ u.width) →
      ∀ u ∈ (l.foldl (buildUnitsStep C sp gp) acc).1, 0 ≤ u.width := by
    intro l
    induction l with
    | nil => intro acc hacc u hu; exact hacc u hu
    | cons p rest ih =>
      intro acc hacc u hu
      refine ih _ ?_ u hu
      intro w hw
      unfold buildUnitsStep at hw
      by_cases h1 : p.id ∈ acc.2
      · rw [if_pos h1] at hw
        exact hacc w hw
      · rw [if_neg h1] at hw
        cases hsp : alLookup sp p.id with
        | none =>
          rw [hsp] at hw
          simp only at hw
          rcases List.mem_append.mp hw with h2 | h2
          · exact hacc w h2
          · have : w = ⟨[p.id], C.nodeWidth, 0⟩ := by simpa using h2
            rw [this]
            exact hW
        | some sid =>
          rw [hsp] at hw
          simp only at hw
          by_cases h2 : gp.any (fun q => q.id == sid) ∧ sid ∉ acc.2
          · rw [if_pos h2] at hw
            rcases List.mem_append.mp hw with h3 | h3
            · exact hacc w h3
            · have : w = ⟨[p.id, sid], C.spouseGap + C.nodeWidth, 0⟩ := by simpa using h3
              rw [this]
              show 0 ≤ C.spouseGap + C.nodeWidth
              linarith
          · rw [if_neg h2] at hw
            rcases List.mem_append.mp hw with h3 | h3
            · exact hacc w h3
            · have : w = ⟨[p.id], C.nodeWidth, 0⟩ := by simpa using h3
              rw [this]
              exact hW
  intro u hu
  exact hstep gp ([], []) (by intro u h; simp at h) u hu

theorem chain_center_le_of_gap (C : LayoutConsts) (hG : 0 ≤ C.siblingGap) :
    ∀ (l : List LUnit), (∀ u ∈ l, 0 ≤ u.width) → List.Chain' (rowGapOk C) l →
      List.Chain' unitCenterLe l := by
  intro l
  induction l with
  | nil => intro _ _; simp
  | cons a rest ih =>
    intro hw hc
    cases rest with
    | nil => simp
    | cons b rest2 =>
      rw [List.chain'_cons] at hc ⊢
      refine ⟨?_, ih (fun u hu => hw u (List.mem_cons_of_mem _ hu)) hc.2⟩
      have h1 := hc.1
      unfold rowGapOk at h1
      unfold unitCenterLe
      have ha : 0 ≤ a.width := hw a (List.mem_cons_self _ _)
      have hb : 0 ≤ b.width := hw b (List.mem_cons_of_mem _ (List.mem_cons_self _ _))
      linarith

theorem layoutLowerRows_chain (C : LayoutConsts)
    (pm : List (String × PersonData)) (hG : 0 ≤ C.siblingGap) :
    ∀ (rows : List (Int × List LUnit)) (prev : List LUnit),
      (∀ r ∈ rows, ∀ u ∈ r.2, 0 ≤ u.width) →
      ∀ row ∈ layoutLowerRows C pm prev rows,
        List.Chain' (rowGapOk C) row.2 ∧ List.Chain' unitCenterLe row.2 := by
  intro rows
  induction rows with
  | nil => intro prev _ row h; simp [layoutLowerRows] at h
  | cons r rest ih =>
    intro prev hw row h
    obtain ⟨g, units⟩ := r
    unfold layoutLowerRows at h
    have hwidth : ∀ u ∈ resolveOverlap C (units.map (centerUnit pm prev)), 0 ≤ u.width := by
      intro u hu
      obtain ⟨v, hv, he⟩ := resolveOverlap_width C _ u hu
      obtain ⟨w, hw2, he2⟩ := List.mem_map.mp hv
      have : v.width = w.width := by
        rw [← he2]
        unfold centerUnit
        by_cases hl : (parentCentersFor pm prev w).length > 0
        · rw [if_pos hl]
        · rw [if_neg hl]
      rw [he, this]
      exact hw (g, units) (List.mem_cons_self _ _) w hw2
    rcases List.mem_cons.mp h with h1 | h1
    · rw [h1]
      simp only
      exact ⟨resolveOverlap_chain C _, chain_center_le_of_gap C hG _ hwidth
        (resolveOverlap_chain C _)⟩
    · exact ih _ (fun r' hr' => hw r' (List.mem_cons_of_mem _ hr')) row h1

/-- Claim C3: in every generation row the layout produces (the top row
included), adjacent units in center-x order keep at least the sibling gap
between the right edge of the left unit and the left edge of the right unit;
the second conjunct states that each row is indeed ordered by center x. -/
theorem C3_min_spacing (C : LayoutConsts) (persons : List PersonData)
    (hW : 0 ≤ C.nodeWidth) (hS : 0 ≤ C.spouseGap) (hG : 0 ≤ C.siblingGap) :
    ∀ row ∈ layoutRows C persons,
      List.Chain' (rowGapOk C) row.2 ∧ List.Chain' unitCenterLe row.2 := by
  intro row h
  have hgw : ∀ r ∈ genUnitsOf C persons, ∀ u ∈ r.2, 0 ≤ u.width := by
    intro r hr u hu
    obtain ⟨g, hg, he⟩ := List.mem_map.mp hr
    rw [← he] at hu
    exact buildUnits_width C hW hS _ _ u hu
  unfold layoutRows at h
  cases hgu : genUnitsOf C persons with
  | nil => rw [hgu] at h; simp at h
  | cons r0 rest =>
    rw [hgu] at h
    obtain ⟨g, units⟩ := r0
    simp only at h
    have hw0 : ∀ u ∈ units, 0 ≤ u.width := by
      intro u hu
      exact hgw (g, units) (by rw [hgu]; exact List.mem_cons_self _ _) u hu
    rcases List.mem_cons.mp h with h1 | h1
    · rw [h1]
      simp only
      have hwp : ∀ u ∈ placeUnits C units, 0 ≤ u.width := by
        intro u hu
        obtain ⟨v, hv, he⟩ := placeUnits_width C units u hu
        rw [he]
        exact hw0 v hv
      exact ⟨placeUnits_chain C units, chain_center_le_of_gap C hG _ hwp
        (placeUnits_chain C units)⟩
    · exact layoutLowerRows_chain C _ hG rest (placeUnits C units)
        (fun r' hr' => hgw r' (by rw [hgu]; exact List.mem_cons_of_mem _ hr')) row h1

/-! ## The code-unit string order -/

theorem char_toNat_inj {c d : Char} (h : c.toNat = d.toNat) : c = d := by
  have h2 : c.val.toNat = d.val.toNat := h
  exact Char.ext (UInt32.toNat.inj h2)

theorem charListLt_asymm : ∀ (a b : List Char),
    charListLt a b = true → charListLt b a = false := by
  intro a
  induction a with
  | nil =>
    intro b h
    cases b with
    | nil => simp [charListLt] at h
    | cons y ys => simp [charListLt]
  | cons x xs ih =>
    intro b h
    cases b with
    | nil => simp [charListLt] at h
    | cons y ys =>
      unfold charListLt at h ⊢
      by_cases h1 : x.toNat < y.toNat
      · rw [if_pos h1] at h
        rw [if_neg (by omega), if_pos h1]
      · rw [if_neg h1] at h
        by_cases h2 : y.toNat < x.toNat
        · rw [if_pos h2] at h
          cases h
        · rw [if_neg h2] at h
          rw [if_neg h2, if_neg h1]
          exact ih ys h

theorem charListLt_connex : ∀ (a b : List Char),
    charListLt a b = false → charListLt b a = false → a = b := by
  intro a
  induction a with
  | nil =>
    intro b h1 _
    cases b with
    | nil => rfl
    | cons y ys => simp [charListLt] at h1
  | cons x xs ih =>
    intro b h1 h2
    cases b with
    | nil => simp [charListLt] at h2
    | cons y ys =>
      unfold charListLt at h1 h2
      by_cases hxy : x.toNat < y.toNat
      · rw [if_pos hxy] at h1
        cases h1
      · rw [if_neg hxy] at h1
        by_cases hyx : y.toNat < x.toNat
        · rw [if_pos hyx] at h2
          cases h2
        · rw [if_neg hyx] at h1
          rw [if_neg hyx, if_neg hxy] at h2
          have hx : x = y := char_toNat_inj (by omega)
          rw [hx, ih ys h1 h2]

theorem charListLt_trans : ∀ (a b c : List Char),
    charListLt a b = true → charListLt b c = true → charListLt a c = true := by
  intro a
  induction a with
  | nil =>
    intro b c h1 h2
    cases b with
    | nil => simp [charListLt] at h1
    | cons y ys =>
      cases c with
      | nil => simp [charListLt] at h2
      | cons z zs => simp [charListLt]
  | cons x xs ih =>
    intro b c h1 h2
    cases b with
    | nil => simp [charListLt] at h1
    | cons y ys =>
      cases c with
      | nil => simp [charListLt] at h2
      | cons z zs =>
        unfold charListLt at h1 h2 ⊢
        by_cases hxy : x.toNat < y.toNat
        · rw [if_pos hxy] at h1
          by_cases hyz : y.toNat < z.toNat
          · rw [if_pos (by omega)]
          · rw [if_neg hyz] at h2
            by_cases hzy : z.toNat < y.toNat
            · rw [if_pos hzy] at h2
              cases h2
            · rw [if_pos (by omega)]
        · rw [if_neg hxy] at h1
          by_cases hyx : y.toNat < x.toNat
          · rw [if_pos hyx] at h1
            cases h1
          · rw [if_neg hyx] at h1
            by_cases hyz : y.toNat < z.toNat
            · rw [if_pos (by omega)]
            · rw [if_neg hyz] at h2
              by_cases hzy : z.toNat < y.toNat
              · rw [if_pos hzy] at h2
                cases h2
              · rw [if_neg hzy] at h2
                rw [if_neg (by omega), if_neg (by omega)]
                exact ih ys zs h1 h2

theorem jsStrLe_iff (a b : String) : jsStrLe a b = true ↔ charListLt b.data a.data = false := by
  unfold jsStrLe jsStrLt
  cases h : charListLt b.data a.data <;> simp

theorem jsStrLe_total (a b : String) : jsStrLe a b = true ∨ jsStrLe b a = true := by
  rw [jsStrLe_iff, jsStrLe_iff]
  cases h : charListLt b.data a.data with
  | false => exact Or.inl rfl
  | true => exact Or.inr (charListLt_asymm _ _ h)

theorem jsStrLe_antisymm {a b : String} (h1 : jsStrLe a b = true)
    (h2 : jsStrLe b a = true) : a = b := by
  rw [jsStrLe_iff] at h1 h2
  exact String.ext (charListLt_connex _ _ h2 h1)

theorem jsStrLe_trans {a b c : String} (h1 : jsStrLe a b = true)
    (h2 : jsStrLe b c = true) : jsStrLe a c = true := by
  rw [jsStrLe_iff] at h1 h2 ⊢
  cases hca : charListLt c.data a.data with
  | false => rfl
  | true =>
    exfalso
    cases hbc : charListLt b.data c.data with
    | true =>
      have := charListLt_trans _ _ _ hbc hca
      rw [this] at h1
      cases h1
    | false =>
      have hbc2 : b.data = c.data := charListLt_connex _ _ hbc h2
      rw [← hbc2] at hca
      rw [hca] at h1
      cases h1

theorem jsSortStrings_pair (a b : String) :
    (jsStrLe a b = true ∧ jsSortStrings [a, b] = [a, b]) ∨
    (jsStrLe b a = true ∧ jsSortStrings [a, b] = [b, a]) := by
  unfold jsSortStrings
  by_cases h : jsStrLe a b = true
  · exact Or.inl ⟨h, by simp [List.insertionSort, List.orderedInsert, h]⟩
  · rcases jsStrLe_total a b with h1 | h1
    · exact absurd h1 h
    · exact Or.inr ⟨h1, by simp [List.insertionSort, List.orderedInsert, h]⟩

theorem joinSep_pair (sep x y : String) : joinSep sep [x, y] = x ++ sep ++ y := rfl

theorem spousePairKey_comm (a b : String) : spousePairKey a b = spousePairKey b a := by
  unfold spousePairKey jsSortJoin
  rcases jsSortStrings_pair a b with ⟨hle, h1⟩ | ⟨hle, h1⟩ <;>
    rcases jsSortStrings_pair b a with ⟨hle2, h2⟩ | ⟨hle2, h2⟩ <;> rw [h1, h2]
  · rw [jsStrLe_antisymm hle hle2]
  · rw [jsStrLe_antisymm hle2 hle]

theorem hyphenSplit : ∀ (a c b d : List Char), '-' ∉ a → '-' ∉ c →
    a ++ '-' :: b = c ++ '-' :: d → a = c ∧ b = d := by
  intro a
  induction a with
  | nil =>
    intro c b d _ hc h
    cases c with
    | nil =>
      simp only [List.nil_append] at h
      cases h
      exact ⟨rfl, rfl⟩
    | cons z zs =>
      simp only [List.nil_append, List.cons_append] at h
      cases h
      exact absurd (List.mem_cons_self _ _) hc
  | cons x xs ih =>
    intro c b d ha hc h
    cases c with
    | nil =>
      simp only [List.cons_append, List.nil_append] at h
      cases h
      exact absurd (List.mem_cons_self _ _) ha
    | cons z zs =>
      simp only [List.cons_append, List.cons.injEq] at h
      obtain ⟨hxz, hrest⟩ := h
      obtain ⟨h1, h2⟩ := ih zs b d (fun hm => ha (List.mem_cons_of_mem _ hm))
        (fun hm => hc (List.mem_cons_of_mem _ hm)) hrest
      exact ⟨by rw [hxz, h1], h2⟩

theorem append_sep_inj {a b c d : String} (ha : hyphenFree a) (hc : hyphenFree c)
    (h : a ++ "-" ++ b = c ++ "-" ++ d) : a = c ∧ b = d := by
  have hd : a.data ++ '-' :: b.data = c.data ++ '-' :: d.data := by
    have h2 := congrArg String.data h
    simp only [String.data_append] at h2
    simpa [List.append_assoc] using h2
  obtain ⟨h1, h2⟩ := hyphenSplit a.data c.data b.data d.data ha hc hd
  exact ⟨String.ext h1, String.ext h2⟩

theorem pairKey2_inj {a b c d : String} (ha : hyphenFree a) (hb : hyphenFree b)
    (hc : hyphenFree c) (hd : hyphenFree d)
    (h : spousePairKey a b = spousePairKey c d) :
    (a = c ∧ b = d) ∨ (a = d ∧ b = c) := by
  unfold spousePairKey jsSortJoin at h
  rcases jsSortStrings_pair a b with ⟨_, h1⟩ | ⟨_, h1⟩ <;>
    rcases jsSortStrings_pair c d with ⟨_, h2⟩ | ⟨_, h2⟩ <;>
      rw [h1, h2, joinSep_pair, joinSep_pair] at h
  · exact Or.inl (append_sep_inj ha hc h)
  · obtain ⟨e1, e2⟩ := append_sep_inj ha hd h
    exact Or.inr ⟨e1, e2⟩
  · obtain ⟨e1, e2⟩ := append_sep_inj hb hc h
    exact Or.inr ⟨e2, e1⟩
  · obtain ⟨e1, e2⟩ := append_sep_inj hb hd h
    exact Or.inl ⟨e2, e1⟩

theorem string_append_left_cancel {a b c : String} (h : a ++ b = a ++ c) : b = c := by
  have h2 := congrArg String.data h
  simp only [String.data_append] at h2
  exact String.ext (List.append_cancel_left h2)

theorem pairKeyOf_pair (p0 p1 : String) : pairKeyOf [p0, p1] = spousePairKey p0 p1 := rfl

/-- Witness for C3 at the desktop constants on the sample family. -/
theorem C3_min_spacing_witness :
    (0 ≤ desktopConsts.nodeWidth ∧ 0 ≤ desktopConsts.spouseGap ∧
      0 ≤ desktopConsts.siblingGap) ∧
    ∀ row ∈ layoutRows desktopConsts sampleP,
      List.Chain' (rowGapOk desktopConsts) row.2 ∧ List.Chain' unitCenterLe row.2 := by
  refine ⟨⟨by norm_num [desktopConsts], by norm_num [desktopConsts],
    by norm_num [desktopConsts]⟩, ?_⟩
  exact C3_min_spacing desktopConsts sampleP (by norm_num [desktopConsts])
    (by norm_num [desktopConsts]) (by norm_num [desktopConsts])

/-! ## C9: spouse edge deduplication -/

theorem filter_spouseEdgeBetween_parents (a b : String) (p : PersonData) :
    (p.parentIds.map (fun pid => mkParentEdge pid p.id)).filter
      (spouseEdgeBetween a b) = [] := by
  rw [List.filter_eq_nil_iff]
  intro e he
  obtain ⟨pid, _, he2⟩ := List.mem_map.mp he
  rw [← he2]
  simp [spouseEdgeBetween, mkParentEdge]

theorem spouseEdgeBetween_iff (a b : String) (e : RelationshipEdge) :
    spouseEdgeBetween a b e = true ↔
      e.rtype = .spouse ∧
        ((e.source = a ∧ e.target = b) ∨ (e.source = b ∧ e.target = a)) := by
  simp [spouseEdgeBetween, decide_eq_true_eq]

theorem genEdgesGo_cons_none {p : PersonData} (rest : List PersonData)
    (seen : List String) (hs : p.spouseId = none) :
    genEdgesGo (p :: rest) seen =
      (p.parentIds.map (fun pid => mkParentEdge pid p.id)) ++ genEdgesGo rest seen := by
  simp [genEdgesGo, hs]

theorem genEdgesGo_cons_some {p : PersonData} {s : String} (rest : List PersonData)
    (seen : List String) (hs : p.spouseId = some s) :
    genEdgesGo (p :: rest) seen =
      (p.parentIds.map (fun pid => mkParentEdge pid p.id)) ++
        (if spousePairKey p.id s ∈ seen then genEdgesGo rest seen
         else (⟨"spouse-" ++ spousePairKey p.id s, p.id, s, .spouse⟩ : RelationshipEdge) ::
           genEdgesGo rest (spousePairKey p.id s :: seen)) := by
  by_cases hk : spousePairKey p.id s ∈ seen
  · simp [genEdgesGo, hs, hk]
  · simp [genEdgesGo, hs, hk]

theorem genEdgesGo_spouse_id : ∀ (persons : List PersonData) (seen : List String),
    ∀ e ∈ genEdgesGo persons seen, e.rtype = .spouse →
      e.id = "spouse-" ++ spousePairKey e.source e.target := by
  intro persons
  induction persons with
  | nil => intro seen e he _; simp [genEdgesGo] at he
  | cons p rest ih =>
    intro seen e he hsp
    cases hs : p.spouseId with
    | none =>
      rw [genEdgesGo_cons_none rest seen hs] at he
      rcases List.mem_append.mp he with h1 | h1
      · obtain ⟨pid, _, he2⟩ := List.mem_map.mp h1
        rw [← he2] at hsp
        cases hsp
      · exact ih seen e h1 hsp
    | some s =>
      rw [genEdgesGo_cons_some rest seen hs] at he
      rcases List.mem_append.mp he with h1 | h1
      · obtain ⟨pid, _, he2⟩ := List.mem_map.mp h1
        rw [← he2] at hsp
        cases hsp
      · by_cases hk : spousePairKey p.id s ∈ seen
        · rw [if_pos hk] at h1
          exact ih seen e h1 hsp
        · rw [if_neg hk] at h1
          rcases List.mem_cons.mp h1 with h2 | h2
          · rw [h2]
          · exact ih _ e h2 hsp

theorem pm_key {a b s : String} {p : PersonData} (hs : p.spouseId = some s)
    (hpm : (p.id = a ∧ p.spouseId = some b) ∨ (p.id = b ∧ p.spouseId = some a)) :
    spousePairKey p.id s = spousePairKey a b := by
  rcases hpm with ⟨h1, h2⟩ | ⟨h1, h2⟩
  · rw [hs] at h2
    cases h2
    rw [h1]
  · rw [hs] at h2
    cases h2
    rw [h1]
    exact spousePairKey_comm _ _

theorem edge_between_key {a b s : String} {p : PersonData} (hs : p.spouseId = some s)
    (hbet : spouseEdgeBetween a b
      ⟨"spouse-" ++ spousePairKey p.id s, p.id, s, .spouse⟩ = true) :
    spousePairKey p.id s = spousePairKey a b := by
  rw [spouseEdgeBetween_iff] at hbet
  rcases hbet.2 with ⟨h1, h2⟩ | ⟨h1, h2⟩
  · have h1' : p.id = a := h1
    have h2' : s = b := h2
    exact pm_key hs (Or.inl ⟨h1', by rw [hs, h2']⟩)
  · have h1' : p.id = b := h1
    have h2' : s = a := h2
    exact pm_key hs (Or.inr ⟨h1', by rw [hs, h2']⟩)

theorem genEdgesGo_pair_count :
    ∀ (persons : List PersonData) (seen : List String) (a b : String),
      hyphenFree a → hyphenFree b →
      (∀ p ∈ persons, hyphenFree p.id ∧ ∀ s ∈ p.spouseId.toList, hyphenFree s) →
      (spousePairKey a b ∈ seen →
        (genEdgesGo persons seen).filter (spouseEdgeBetween a b) = []) ∧
      (spousePairKey a b ∉ seen →
        ((∃ p ∈ persons,
            (p.id = a ∧ p.spouseId = some b) ∨ (p.id = b ∧ p.spouseId = some a)) →
          (genEdgesGo persons seen).filter (spouseEdgeBetween a b) =
            [⟨"spouse-" ++ spousePairKey a b, a, b, .spouse⟩] ∨
          (genEdgesGo persons seen).filter (spouseEdgeBetween a b) =
            [⟨"spouse-" ++ spousePairKey a b, b, a, .spouse⟩]) ∧
        ((¬ ∃ p ∈ persons,
            (p.id = a ∧ p.spouseId = some b) ∨ (p.id = b ∧ p.spouseId = some a)) →
          (genEdgesGo persons seen).filter (spouseEdgeBetween a b) = [])) := by
  intro persons
  induction persons with
  | nil =>
    intro seen a b _ _ _
    refine ⟨fun _ => rfl, fun _ => ⟨fun h => ?_, fun _ => rfl⟩⟩
    obtain ⟨p, hp, _⟩ := h
    simp at hp
  | cons p rest ih =>
    intro seen a b ha hb H
    have Hp := H p (List.mem_cons_self _ _)
    have Hrest : ∀ q ∈ rest, hyphenFree q.id ∧ ∀ s ∈ q.spouseId.toList, hyphenFree s :=
      fun q hq => H q (List.mem_cons_of_mem _ hq)
    have hparents := filter_spouseEdgeBetween_parents a b p
    cases hs : p.spouseId with
    | none =>
      have hpm : ¬ ((p.id = a ∧ p.spouseId = some b) ∨
          (p.id = b ∧ p.spouseId = some a)) := by
        rw [hs]
        rintro (⟨_, h2⟩ | ⟨_, h2⟩) <;> cases h2
      constructor
      · intro hseen
        rw [genEdgesGo_cons_none rest seen hs, List.filter_append, hparents, List.nil_append]
        exact (ih seen a b ha hb Hrest).1 hseen
      · intro hnot
        constructor
        · rintro ⟨q, hq, hqm⟩
          rcases List.mem_cons.mp hq with h1 | h1
          · exact absurd (h1 ▸ hqm) hpm
          · rw [genEdgesGo_cons_none rest seen hs, List.filter_append, hparents, List.nil_append]
            exact ((ih seen a b ha hb Hrest).2 hnot).1 ⟨q, h1, hqm⟩
        · intro hne
          rw [genEdgesGo_cons_none rest seen hs, List.filter_append, hparents, List.nil_append]
          exact ((ih seen a b ha hb Hrest).2 hnot).2
            (fun ⟨q, hq, hqm⟩ => hne ⟨q, List.mem_cons_of_mem _ hq, hqm⟩)
    | some s =>
      have hsid : hyphenFree p.id := Hp.1
      have hss : hyphenFree s := Hp.2 s (by rw [hs]; simp)
      by_cases hk : spousePairKey p.id s ∈ seen
      · constructor
        · intro hseen
          rw [genEdgesGo_cons_some rest seen hs, if_pos hk, List.filter_append, hparents,
            List.nil_append]
          exact (ih seen a b ha hb Hrest).1 hseen
        · intro hnot
          have hpm : ¬ ((p.id = a ∧ p.spouseId = some b) ∨
              (p.id = b ∧ p.spouseId = some a)) := by
            intro hpm
            exact hnot (pm_key hs hpm ▸ hk)
          constructor
          · rintro ⟨q, hq, hqm⟩
            rcases List.mem_cons.mp hq with h1 | h1
            · exact absurd (h1 ▸ hqm) hpm
            · rw [genEdgesGo_cons_some rest seen hs, if_pos hk, List.filter_append, hparents,
                List.nil_append]
              exact ((ih seen a b ha hb Hrest).2 hnot).1 ⟨q, h1, hqm⟩
          · intro hne
            rw [genEdgesGo_cons_some rest seen hs, if_pos hk, List.filter_append, hparents,
              List.nil_append]
            exact ((ih seen a b ha hb Hrest).2 hnot).2
              (fun ⟨q, hq, hqm⟩ => hne ⟨q, List.mem_cons_of_mem _ hq, hqm⟩)
      · -- a fresh spouse edge for p is emitted
        have hKeq : spousePairKey p.id s = spousePairKey a b →
            ((p.id = a ∧ p.spouseId = some b) ∨ (p.id = b ∧ p.spouseId = some a)) := by
          intro hK
          rcases pairKey2_inj hsid hss ha hb hK with ⟨h1, h2⟩ | ⟨h1, h2⟩
          · exact Or.inl ⟨h1, by rw [hs, h2]⟩
          · exact Or.inr ⟨h1, by rw [hs, h2]⟩
        constructor
        · intro hseen
          have hKne : spousePairKey p.id s ≠ spousePairKey a b := by
            intro hK
            exact hk (hK ▸ hseen)
          have hpred : spouseEdgeBetween a b
              ⟨"spouse-" ++ spousePairKey p.id s, p.id, s, .spouse⟩ = false := by
            rw [Bool.eq_false_iff]
            intro hp2
            exact hKne (edge_between_key hs hp2)
          rw [genEdgesGo_cons_some rest seen hs, if_neg hk, List.filter_append, hparents,
            List.nil_append, List.filter_cons_of_neg (by rw [hpred]; simp)]
          exact (ih (spousePairKey p.id s :: seen) a b ha hb Hrest).1
            (List.mem_cons_of_mem _ hseen)
        · intro hnot
          constructor
          · rintro ⟨q, hq, hqm⟩
            by_cases hpm : (p.id = a ∧ p.spouseId = some b) ∨
                (p.id = b ∧ p.spouseId = some a)
            · have hK := pm_key hs hpm
              have hpred : spouseEdgeBetween a b
                  ⟨"spouse-" ++ spousePairKey p.id s, p.id, s, .spouse⟩ = true := by
                rw [spouseEdgeBetween_iff]
                refine ⟨rfl, ?_⟩
                rcases hpm with ⟨h1, h2⟩ | ⟨h1, h2⟩
                · rw [hs] at h2; cases h2; exact Or.inl ⟨h1, rfl⟩
                · rw [hs] at h2; cases h2; exact Or.inr ⟨h1, rfl⟩
              rw [genEdgesGo_cons_some rest seen hs, if_neg hk, List.filter_append, hparents,
                List.nil_append, List.filter_cons_of_pos hpred]
              have hrest0 := (ih (spousePairKey p.id s :: seen) a b ha hb Hrest).1
                (by rw [← hK]; exact List.mem_cons_self _ _)
              rw [hrest0]
              rcases hpm with ⟨h1, h2⟩ | ⟨h1, h2⟩
              · rw [hs] at h2; cases h2
                left
                rw [hK, h1]
              · rw [hs] at h2; cases h2
                right
                rw [hK, h1]
            · have hKne : spousePairKey p.id s ≠ spousePairKey a b :=
                fun hK => hpm (hKeq hK)
              have hpred : spouseEdgeBetween a b
                  ⟨"spouse-" ++ spousePairKey p.id s, p.id, s, .spouse⟩ = false := by
                rw [Bool.eq_false_iff]
                intro hp2
                exact hKne (edge_between_key hs hp2)
              have hq' : q ∈ rest := by
                rcases List.mem_cons.mp hq with h1 | h1
                · exact absurd (h1 ▸ hqm) hpm
                · exact h1
              rw [genEdgesGo_cons_some rest seen hs, if_neg hk, List.filter_append, hparents,
                List.nil_append, List.filter_cons_of_neg (by rw [hpred]; simp)]
              exact ((ih (spousePairKey p.id s :: seen) a b ha hb Hrest).2
                (by
                  intro hmem
                  rcases List.mem_cons.mp hmem with hm | hm
                  · exact hKne hm.symm
                  · exact hnot hm)).1 ⟨q, hq', hqm⟩
          · intro hne
            have hpm : ¬ ((p.id = a ∧ p.spouseId = some b) ∨
                (p.id = b ∧ p.spouseId = some a)) :=
              fun hpm => hne ⟨p, List.mem_cons_self _ _, hpm⟩
            have hKne : spousePairKey p.id s ≠ spousePairKey a b :=
              fun hK => hpm (hKeq hK)
            have hpred : spouseEdgeBetween a b
                ⟨"spouse-" ++ spousePairKey p.id s, p.id, s, .spouse⟩ = false := by
              rw [Bool.eq_false_iff]
              intro hp2
              exact hKne (edge_between_key hs hp2)
            rw [genEdgesGo_cons_some rest seen hs, if_neg hk, List.filter_append, hparents,
              List.nil_append, List.filter_cons_of_neg (by rw [hpred]; simp)]
            exact ((ih (spousePairKey p.id s :: seen) a b ha hb Hrest).2
              (by
                  intro hmem
                  rcases List.mem_cons.mp hmem with hm | hm
                  · exact hKne hm.symm
                  · exact hnot hm)).2
              (fun ⟨q, hq, hqm⟩ => hne ⟨q, List.mem_cons_of_mem _ hq, hqm⟩)

/-- Counterexample to claim C9 as stated: in `cexC9Persons` the two distinct
unordered spouse pairs collide on the sorted-join key `"a-b-c"`, so the second
pair gets no edge at all. -/
theorem C9_counterexample : ¬ C9Statement cexC9Persons := by
  intro h
  have h2 := h ⟨"a", "other", false, [], some "b-c"⟩ (by decide) "b-c" rfl
  exact absurd h2.1 (by decide)

/-- Claim C9 (amended): when no person id or spouse reference contains the
`'-'` separator, the edge generator emits exactly one spouse edge per unique
unordered pair, identified by the sorted-pair key. -/
theorem C9_spouse_edges_hyphen_free (persons : List PersonData)
    (H : idsHyphenFree persons) : C9Statement persons := by
  intro p hp s hs
  have hpa := (H p hp).1
  have hpb := (H p hp).2 s (by rw [hs]; simp)
  have master := genEdgesGo_pair_count persons [] p.id s hpa hpb (fun q hq => H q hq)
  have hnot : spousePairKey p.id s ∉ ([] : List String) := by simp
  have hfil := (master.2 hnot).1 ⟨p, hp, Or.inl ⟨rfl, hs⟩⟩
  constructor
  · show ((genEdgesGo persons []).filter (spouseEdgeBetween p.id s)).length = 1
    rcases hfil with hfil | hfil <;> rw [hfil] <;> rfl
  · intro e2 he2 hbet
    have hsp2 : e2.rtype = .spouse := ((spouseEdgeBetween_iff _ _ _).mp hbet).1
    have hid := genEdgesGo_spouse_id persons [] e2 he2 hsp2
    rcases ((spouseEdgeBetween_iff _ _ _).mp hbet).2 with ⟨h1, h2⟩ | ⟨h1, h2⟩
    · rw [hid, h1, h2]
    · rw [hid, h1, h2, spousePairKey_comm]

/-- Witness for the amended C9 on a hyphen-free couple. -/
theorem C9_spouse_edges_witness : idsHyphenFree coupleP ∧ C9Statement coupleP :=
  ⟨by decide, C9_spouse_edges_hyphen_free coupleP (by decide)⟩

/-! ## C1 and C10: the junction-building loop -/

theorem length2_eq {l : List String} (h : l.length = 2) : ∃ a b, l = [a, b] := by
  match l, h with
  | [a, b], _ => exact ⟨a, b, rfl⟩

theorem pairResolved_pair {positions : List (String × Pos)} {p0 p1 : String}
    {q0 q1 : Pos} (h0 : alLookup positions p0 = some q0)
    (h1 : alLookup positions p1 = some q1) : pairResolved positions [p0, p1] := by
  intro p hp
  rcases List.mem_cons.mp hp with h | h
  · rw [h, h0]; rfl
  · rw [List.mem_singleton.mp h, h1]; rfl

theorem pairXSum_pair {positions : List (String × Pos)} {p0 p1 : String} {q0 q1 : Pos}
    (h0 : alLookup positions p0 = some q0) (h1 : alLookup positions p1 = some q1) :
    pairXSum positions [p0, p1] = q0.x + q1.x := by
  unfold pairXSum
  simp [List.filterMap, h0, h1]

theorem pairResolved_perm {positions : List (String × Pos)} {l1 l2 : List String}
    (hp : l1.Perm l2) (h : pairResolved positions l1) : pairResolved positions l2 :=
  fun p hm => h p (hp.mem_iff.mpr hm)

theorem pairXSum_perm {positions : List (String × Pos)} {l1 l2 : List String}
    (hp : l1.Perm l2) : pairXSum positions l1 = pairXSum positions l2 :=
  List.Perm.sum_eq (hp.filterMap _)

theorem pairKey2_perm {a b c d : String} (ha : hyphenFree a) (hb : hyphenFree b)
    (hc : hyphenFree c) (hd : hyphenFree d)
    (h : pairKeyOf [a, b] = pairKeyOf [c, d]) : List.Perm [a, b] [c, d] := by
  rw [pairKeyOf_pair, pairKeyOf_pair] at h
  rcases pairKey2_inj ha hb hc hd h with ⟨h1, h2⟩ | ⟨h1, h2⟩
  · rw [h1, h2]
  · rw [h1, h2]
    exact List.Perm.swap _ _ _

theorem junction_id_inj {K K' : String}
    (h : "junction-" ++ K = "junction-" ++ K') : K = K' :=
  string_append_left_cancel h

theorem alSet_mem {K α : Type} [DecidableEq K] :
    ∀ (m : List (K × α)) (k : K) (v : α) (x : K × α),
      x ∈ alSet m k v → x = (k, v) ∨ x ∈ m := by
  intro m
  induction m with
  | nil =>
    intro k v x hx
    simp [alSet] at hx
    exact Or.inl hx
  | cons e rest ih =>
    intro k v x hx
    unfold alSet at hx
    by_cases he : e.1 = k
    · rw [if_pos he] at hx
      rcases List.mem_cons.mp hx with h | h
      · exact Or.inl h
      · exact Or.inr (List.mem_cons_of_mem _ h)
    · rw [if_neg he] at hx
      rcases List.mem_cons.mp hx with h | h
      · exact Or.inr (by rw [h]; exact List.mem_cons_self _ _)
      · rcases ih k v x h with h2 | h2
        · exact Or.inl h2
        · exact Or.inr (List.mem_cons_of_mem _ h2)

theorem alKeys_alSet_nodup {K α : Type} [DecidableEq K] :
    ∀ (m : List (K × α)) (k : K) (v : α),
      (alKeys m).Nodup → (alKeys (alSet m k v)).Nodup := by
  intro m
  induction m with
  | nil => intro k v _; simp [alSet, alKeys]
  | cons e rest ih =>
    intro k v hnd
    unfold alSet
    rw [show alKeys (e :: rest) = e.1 :: alKeys rest from rfl] at hnd
    by_cases he : e.1 = k
    · rw [if_pos he]
      rw [show alKeys ((k, v) :: rest) = k :: alKeys rest from rfl]
      rw [← he]
      exact hnd
    · rw [if_neg he]
      rw [show alKeys (e :: alSet rest k v) = e.1 :: alKeys (alSet rest k v) from rfl]
      rw [List.nodup_cons] at hnd ⊢
      refine ⟨?_, ih k v hnd.2⟩
      intro hmem
      rcases (mem_alKeys_alSet rest k e.1 v).mp hmem with h | h
      · exact he h
      · exact hnd.1 h

theorem childParentsOf_keys_nodup (relEdges : List RelationshipEdge) :
    (alKeys (childParentsOf relEdges)).Nodup := by
  unfold childParentsOf
  have : ∀ (l : List RelationshipEdge) (m : List (String × List String)),
      (alKeys m).Nodup →
      (alKeys (l.foldl
        (fun m e =>
          if e.rtype = .parentChild then
            alSet m e.target ((alLookup m e.target).getD [] ++ [e.source])
          else m) m)).Nodup := by
    intro l
    induction l with
    | nil => intro m h; exact h
    | cons e rest ih =>
      intro m h
      refine ih _ ?_
      show (alKeys (if e.rtype = REdgeType.parentChild then
        alSet m e.target ((alLookup m e.target).getD [] ++ [e.source]) else m)).Nodup
      by_cases he : e.rtype = REdgeType.parentChild
      · rw [if_pos he]
        exact alKeys_alSet_nodup _ _ _ h
      · rw [if_neg he]
        exact h
  exact this relEdges [] (by simp [alKeys])

theorem childParentsOf_sources (relEdges : List RelationshipEdge) :
    ∀ ce ∈ childParentsOf relEdges, ∀ p ∈ ce.2,
      ∃ e ∈ relEdges, e.rtype = .parentChild ∧ e.source = p := by
  unfold childParentsOf
  have : ∀ (l : List RelationshipEdge) (m : List (String × List String)),
      (∀ x ∈ l, x ∈ relEdges) →
      (∀ ce ∈ m, ∀ p ∈ ce.2, ∃ e ∈ relEdges, e.rtype = .parentChild ∧ e.source = p) →
      ∀ ce ∈ (l.foldl
        (fun m e =>
          if e.rtype = .parentChild then
            alSet m e.target ((alLookup m e.target).getD [] ++ [e.source])
          else m) m), ∀ p ∈ ce.2,
        ∃ e ∈ relEdges, e.rtype = .parentChild ∧ e.source = p := by
    intro l
    induction l with
    | nil => intro m _ hm; exact hm
    | cons e rest ih =>
      intro m hl hm
      refine ih _ (fun x hx => hl x (List.mem_cons_of_mem _ hx)) ?_
      show ∀ ce ∈ (if e.rtype = REdgeType.parentChild then
          alSet m e.target ((alLookup m e.target).getD [] ++ [e.source]) else m),
        ∀ p ∈ ce.2, ∃ e2 ∈ relEdges, e2.rtype = .parentChild ∧ e2.source = p
      by_cases he : e.rtype = REdgeType.parentChild
      · rw [if_pos he]
        intro ce hce p hp
        rcases alSet_mem _ _ _ ce hce with h | h
        · rw [h] at hp
          simp only at hp
          rcases List.mem_append.mp hp with h2 | h2
          · cases hlk : alLookup m e.target with
            | none => rw [hlk] at h2; simp at h2
            | some old =>
              rw [hlk] at h2
              simp only [Option.getD_some] at h2
              exact hm _ (alLookup_mem hlk) p h2
          · have : p = e.source := by simpa using h2
            exact ⟨e, hl e (List.mem_cons_self _ _), he, this.symm⟩
        · exact hm ce h p hp
      · rw [if_neg he]
        exact hm
  exact this relEdges [] (fun x hx => hx) (by intro ce hce; simp at hce)

theorem jEdgeFor_target {positions : List (String × Pos)}
    {entry : String × List String} {e : FlowEdge} (h : e ∈ jEdgeFor positions entry) :
    e.target = entry.1 ∧ e.ftype = "smoothstep" ∧
      e.source = "junction-" ++ pairKeyOf entry.2 ∧
      e.id = "e-junction-" ++ pairKeyOf entry.2 ++ "-" ++ entry.1 := by
  unfold jEdgeFor at h
  by_cases hc : entry.2.length = 2 ∧ pairResolved positions entry.2
  · rw [if_pos hc] at h
    have : e = ⟨"e-junction-" ++ pairKeyOf entry.2 ++ "-" ++ entry.1,
        "junction-" ++ pairKeyOf entry.2, entry.1, "smoothstep"⟩ := by simpa using h
    rw [this]
    exact ⟨rfl, rfl, rfl, rfl⟩
  · rw [if_neg hc] at h
    simp at h

theorem eJunctionId (K c : String) :
    "e-" ++ ("junction-" ++ K) ++ "-" ++ c = "e-junction-" ++ K ++ "-" ++ c := by
  rw [← String.append_assoc]
  rfl

theorem pair_key_eq_perm {ps ps' : List String} (h2 : ps.length = 2) (h2' : ps'.length = 2)
    (Hps : ∀ p ∈ ps, hyphenFree p) (Hps' : ∀ p ∈ ps', hyphenFree p)
    (hk : pairKeyOf ps = pairKeyOf ps') : ps.Perm ps' := by
  obtain ⟨a, b, rfl⟩ := length2_eq h2
  obtain ⟨c, d, rfl⟩ := length2_eq h2'
  exact pairKey2_perm (Hps a (by simp)) (Hps b (by simp)) (Hps' c (by simp))
    (Hps' d (by simp)) hk

theorem junctionStep_eq_skip (positions : List (String × Pos)) (st : JBuildState)
    (entry : String × List String) (h2 : ¬ entry.2.length = 2) :
    junctionStep positions st entry = st := by
  unfold junctionStep
  rw [if_neg h2]

theorem junctionStep_eq_seen (positions : List (String × Pos)) (st : JBuildState)
    (entry : String × List String) (jid : String) (h2 : entry.2.length = 2)
    (hlk : alLookup st.spouseJunctions (pairKeyOf entry.2) = some jid) :
    junctionStep positions st entry =
      { st with edges :=
          st.edges ++ [⟨"e-" ++ jid ++ "-" ++ entry.1, jid, entry.1, "smoothstep"⟩] } := by
  simp only [junctionStep, h2, if_true, hlk, Option.isSome_some, if_pos]

theorem junctionStep_eq_create (positions : List (String × Pos)) (st : JBuildState)
    (entry : String × List String) (p0 p1 : String) (q0 q1 : Pos)
    (hps : entry.2 = [p0, p1])
    (hlk : alLookup st.spouseJunctions (pairKeyOf [p0, p1]) = none)
    (hq0 : alLookup positions p0 = some q0) (hq1 : alLookup positions p1 = some q1) :
    junctionStep positions st entry =
      ⟨st.junctionNodes ++ [⟨"junction-" ++ pairKeyOf [p0, p1], (q0.x + q1.x) / 2,
          max q0.y q1.y + 100⟩],
        alSet st.spouseJunctions (pairKeyOf [p0, p1]) ("junction-" ++ pairKeyOf [p0, p1]),
        st.edges ++ [⟨"e-" ++ ("junction-" ++ pairKeyOf [p0, p1]) ++ "-" ++ entry.1,
          "junction-" ++ pairKeyOf [p0, p1], entry.1, "smoothstep"⟩]⟩ := by
  simp [junctionStep, hps, hlk, hq0, hq1, alLookup_alSet_self]

theorem junctionStep_eq_missing0 (positions : List (String × Pos)) (st : JBuildState)
    (entry : String × List String) (p0 p1 : String) (hps : entry.2 = [p0, p1])
    (hlk : alLookup st.spouseJunctions (pairKeyOf [p0, p1]) = none)
    (hq0 : alLookup positions p0 = none) :
    junctionStep positions st entry = st := by
  simp [junctionStep, hps, hlk, hq0]

theorem junctionStep_eq_missing1 (positions : List (String × Pos)) (st : JBuildState)
    (entry : String × List String) (p0 p1 : String) (q0 : Pos) (hps : entry.2 = [p0, p1])
    (hlk : alLookup st.spouseJunctions (pairKeyOf [p0, p1]) = none)
    (hq0 : alLookup positions p0 = some q0) (hq1 : alLookup positions p1 = none) :
    junctionStep positions st entry = st := by
  simp [junctionStep, hps, hlk, hq0, hq1]

theorem jEdgeFor_eq_nil {positions : List (String × Pos)} {e : String × List String}
    (hno : ¬ (e.2.length = 2 ∧ pairResolved positions e.2)) :
    jEdgeFor positions e = [] := by
  unfold jEdgeFor
  rw [if_neg hno]

theorem jEdgeFor_eq_cons {positions : List (String × Pos)} {e : String × List String}
    (h2 : e.2.length = 2) (hres : pairResolved positions e.2) :
    jEdgeFor positions e =
      [⟨"e-junction-" ++ pairKeyOf e.2 ++ "-" ++ e.1,
        "junction-" ++ pairKeyOf e.2, e.1, "smoothstep"⟩] := by
  unfold jEdgeFor
  rw [if_pos ⟨h2, hres⟩]

theorem jFoldInv_extend_trivial (positions : List (String × Pos))
    (done : List (String × List String)) (st : JBuildState) (e : String × List String)
    (inv : JFoldInv positions done st)
    (hno : ¬ (e.2.length = 2 ∧ pairResolved positions e.2)) :
    JFoldInv positions (done ++ [e]) st := by
  refine ⟨?_, inv.sj_val, inv.node_count, ?_, ?_⟩
  · intro K
    rw [inv.sj_iff K]
    constructor
    · rintro ⟨x, hx, h⟩
      exact ⟨x, List.mem_append_left _ hx, h⟩
    · rintro ⟨x, hx, hl, hk, hr⟩
      rcases List.mem_append.mp hx with h | h
      · exact ⟨x, h, hl, hk, hr⟩
      · have hxe : x = e := by simpa using h
        rw [hxe] at hl hr
        exact absurd ⟨hl, hr⟩ hno
  · intro j hj
    obtain ⟨x, hx, h⟩ := inv.node_src j hj
    exact ⟨x, List.mem_append_left _ hx, h⟩
  · rw [inv.edges_eq, List.flatMap_append]
    simp [jEdgeFor_eq_nil hno]

theorem junctionStep_inv (positions : List (String × Pos))
    (done : List (String × List String)) (st : JBuildState) (e : String × List String)
    (He : ∀ p ∈ e.2, hyphenFree p)
    (Hdone : ∀ e' ∈ done, ∀ p ∈ e'.2, hyphenFree p)
    (inv : JFoldInv positions done st) :
    JFoldInv positions (done ++ [e]) (junctionStep positions st e) := by
  by_cases h2 : e.2.length = 2
  case neg =>
    rw [junctionStep_eq_skip positions st e h2]
    exact jFoldInv_extend_trivial positions done st e inv (fun h => h2 h.1)
  case pos =>
  cases hlk : alLookup st.spouseJunctions (pairKeyOf e.2) with
  | some jid =>
    have hj := inv.sj_val _ _ hlk
    -- the key already has a junction, so an earlier entry with the same key was
    -- resolved; by hyphen-freeness this entry's pair is the same pair, so it is
    -- resolved too
    have hres : pairResolved positions e.2 := by
      obtain ⟨x, hx, hl2, hk2, hr2⟩ := (inv.sj_iff (pairKeyOf e.2)).mp (by rw [hlk]; rfl)
      exact pairResolved_perm
        (pair_key_eq_perm hl2 h2 (Hdone x hx) He hk2) hr2
    rw [junctionStep_eq_seen positions st e jid h2 hlk]
    refine ⟨?_, inv.sj_val, inv.node_count, ?_, ?_⟩
    · intro K
      rw [show ({ st with edges := st.edges ++
          [⟨"e-" ++ jid ++ "-" ++ e.1, jid, e.1, "smoothstep"⟩] } :
          JBuildState).spouseJunctions = st.spouseJunctions from rfl]
      rw [inv.sj_iff K]
      constructor
      · rintro ⟨x, hx, h⟩
        exact ⟨x, List.mem_append_left _ hx, h⟩
      · rintro ⟨x, hx, hl, hk, hr⟩
        rcases List.mem_append.mp hx with h | h
        · exact ⟨x, h, hl, hk, hr⟩
        · have hxe : x = e := by simpa using h
          rw [hxe] at hk
          obtain ⟨x2, hx2, h3⟩ := (inv.sj_iff (pairKeyOf e.2)).mp (by rw [hlk]; rfl)
          exact ⟨x2, hx2, h3.1, h3.2.1.trans hk, h3.2.2⟩
    · intro j hj
      obtain ⟨x, hx, h⟩ := inv.node_src j hj
      exact ⟨x, List.mem_append_left _ hx, h⟩
    · show st.edges ++ _ = _
      rw [inv.edges_eq, List.flatMap_append, List.flatMap_cons, List.flatMap_nil,
        List.append_nil, jEdgeFor_eq_cons h2 hres, hj, eJunctionId]
  | none =>
    obtain ⟨p0, p1, hps⟩ := length2_eq h2
    have hlk' : alLookup st.spouseJunctions (pairKeyOf [p0, p1]) = none := by
      rw [← hps]; exact hlk
    cases hq0 : alLookup positions p0 with
    | none =>
      rw [junctionStep_eq_missing0 positions st e p0 p1 hps hlk' hq0]
      refine jFoldInv_extend_trivial positions done st e inv ?_
      rintro ⟨_, hres⟩
      have := hres p0 (by rw [hps]; simp)
      rw [hq0] at this
      cases this
    | some q0 =>
      cases hq1 : alLookup positions p1 with
      | none =>
        rw [junctionStep_eq_missing1 positions st e p0 p1 q0 hps hlk' hq0 hq1]
        refine jFoldInv_extend_trivial positions done st e inv ?_
        rintro ⟨_, hres⟩
        have := hres p1 (by rw [hps]; simp)
        rw [hq1] at this
        cases this
      | some q1 =>
        have hres : pairResolved positions e.2 := by
          rw [hps]
          exact pairResolved_pair hq0 hq1
        rw [junctionStep_eq_create positions st e p0 p1 q0 q1 hps hlk' hq0 hq1]
        refine ⟨?_, ?_, ?_, ?_, ?_⟩
        · intro K
          show (alLookup (alSet st.spouseJunctions (pairKeyOf [p0, p1])
            ("junction-" ++ pairKeyOf [p0, p1])) K).isSome ↔ _
          by_cases hK : pairKeyOf [p0, p1] = K
          · rw [← hK, alLookup_alSet_self]
            simp only [Option.isSome_some, true_iff]
            exact ⟨e, List.mem_append_right _ (by simp), h2, by rw [hps], hres⟩
          · rw [alLookup_alSet_ne _ _ _ _ hK]
            rw [inv.sj_iff K]
            constructor
            · rintro ⟨x, hx, h⟩
              exact ⟨x, List.mem_append_left _ hx, h⟩
            · rintro ⟨x, hx, hl, hk, hr⟩
              rcases List.mem_append.mp hx with h | h
              · exact ⟨x, h, hl, hk, hr⟩
              · have hxe : x = e := by simpa using h
                rw [hxe, hps] at hk
                exact absurd hk hK
        · intro K jid hjid
          show _ = _
          by_cases hK : pairKeyOf [p0, p1] = K
          · rw [← hK, alLookup_alSet_self] at hjid
            cases hjid
            rw [hK]
          · rw [alLookup_alSet_ne _ _ _ _ hK] at hjid
            exact inv.sj_val K jid hjid
        · intro K
          show ((st.junctionNodes ++ [_]).filter _).length = _
          rw [List.filter_append]
          by_cases hK : pairKeyOf [p0, p1] = K
          · rw [← hK, alLookup_alSet_self]
            have hold := inv.node_count (pairKeyOf [p0, p1])
            rw [hlk'] at hold
            simp only [Option.isSome_none, if_false] at hold
            rw [List.length_append, hold]
            simp
          · rw [alLookup_alSet_ne _ _ _ _ hK]
            rw [List.length_append]
            have hfil : (List.filter (fun j => j.id == "junction-" ++ K)
                [(⟨"junction-" ++ pairKeyOf [p0, p1], (q0.x + q1.x) / 2,
                  max q0.y q1.y + 100⟩ : JNode)]).length = 0 := by
              simp only [List.filter, List.length]
              rw [show (((⟨"junction-" ++ pairKeyOf [p0, p1], (q0.x + q1.x) / 2,
                  max q0.y q1.y + 100⟩ : JNode)).id == "junction-" ++ K) = false by
                simp only [beq_eq_false_iff_ne, ne_eq]
                intro hid
                exact hK (junction_id_inj hid)]
              rfl
            rw [hfil, Nat.add_zero]
            exact inv.node_count K
        · intro j hj
          rcases List.mem_append.mp hj with h | h
          · obtain ⟨x, hx, hrest⟩ := inv.node_src j h
            exact ⟨x, List.mem_append_left _ hx, hrest⟩
          · have hje : j = ⟨"junction-" ++ pairKeyOf [p0, p1], (q0.x + q1.x) / 2,
                max q0.y q1.y + 100⟩ := by simpa using h
            refine ⟨e, List.mem_append_right _ (by simp), h2, hres, ?_, ?_⟩
            · rw [hje, hps]
            · rw [hje, hps, pairXSum_pair hq0 hq1]
              show 2 * ((q0.x + q1.x) / 2) = q0.x + q1.x
              ring
        · show st.edges ++ _ = _
          rw [inv.edges_eq, List.flatMap_append, List.flatMap_cons, List.flatMap_nil,
            List.append_nil, jEdgeFor_eq_cons h2 hres, hps, eJunctionId]

theorem junctionFold_inv (positions : List (String × Pos)) :
    ∀ (rest done : List (String × List String)) (st : JBuildState),
      (∀ x ∈ done ++ rest, ∀ p ∈ x.2, hyphenFree p) →
      JFoldInv positions done st →
      JFoldInv positions (done ++ rest) (rest.foldl (junctionStep positions) st) := by
  intro rest
  induction rest with
  | nil =>
    intro done st _ inv
    rw [List.append_nil]
    exact inv
  | cons e rest2 ih =>
    intro done st H inv
    have step := junctionStep_inv positions done st e
      (fun p hp => H e (by simp) p hp)
      (fun x hx => H x (List.mem_append_left _ hx)) inv
    have hres := ih (done ++ [e]) (junctionStep positions st e)
      (by
        intro x hx p hp
        exact H x (by simpa [List.append_assoc] using hx) p hp) step
    rw [show done ++ e :: rest2 = (done ++ [e]) ++ rest2 by simp]
    exact hres

theorem cp_hyphenFree {relEdges : List RelationshipEdge}
    (H : pcSourcesHyphenFree relEdges) :
    ∀ x ∈ childParentsOf relEdges, ∀ p ∈ x.2, hyphenFree p := by
  intro x hx p hp
  obtain ⟨e2, he2, ht, hsrc⟩ := childParentsOf_sources relEdges x hx p hp
  rw [← hsrc]
  exact H e2 he2 ht

theorem buildFlow_inv (relEdges : List RelationshipEdge) (positions : List (String × Pos))
    (H : pcSourcesHyphenFree relEdges) :
    JFoldInv positions (childParentsOf relEdges)
      ((childParentsOf relEdges).foldl (junctionStep positions) ⟨[], [], []⟩) := by
  have base : JFoldInv positions [] ⟨[], [], []⟩ := by
    refine ⟨?_, ?_, ?_, ?_, ?_⟩
    · intro K
      simp [alLookup]
    · intro K jid h
      simp [alLookup] at h
    · intro K
      simp [alLookup, List.filter]
    · intro j hj
      simp at hj
    · rfl
  have hmain := junctionFold_inv positions (childParentsOf relEdges) [] ⟨[], [], []⟩
    (by simpa using cp_hyphenFree H) base
  simpa using hmain

theorem buildFlowElements_eq (relEdges : List RelationshipEdge)
    (positions : List (String × Pos)) :
    buildFlowElements relEdges positions =
      (((childParentsOf relEdges).foldl (junctionStep positions) ⟨[], [], []⟩).edges ++
        relEdges.foldl (normalEdgeStep (twoParentChildrenOf relEdges)) [],
       ((childParentsOf relEdges).foldl (junctionStep positions) ⟨[], [], []⟩).junctionNodes) :=
  rfl

theorem cp_entry_unique {relEdges : List RelationshipEdge} {c : String}
    {ps : List String} {y : String × List String}
    (hmem : (c, ps) ∈ childParentsOf relEdges) (hy : y ∈ childParentsOf relEdges)
    (hy1 : y.1 = c) : y = (c, ps) :=
  List.inj_on_of_nodup_map (childParentsOf_keys_nodup relEdges) hy hmem
    (by rw [hy1])

theorem flatMap_jEdge_filter (positions : List (String × Pos)) :
    ∀ (cp : List (String × List String)), (alKeys cp).Nodup →
      ∀ c ps, (c, ps) ∈ cp →
      (cp.flatMap (jEdgeFor positions)).filter
        (fun e => e.target == c && e.ftype == "smoothstep") =
        jEdgeFor positions (c, ps) := by
  intro cp
  induction cp with
  | nil =>
    intro _ c ps h
    simp at h
  | cons x rest ih =>
    intro hnd c ps hmem
    rw [show alKeys (x :: rest) = x.1 :: alKeys rest from rfl, List.nodup_cons] at hnd
    rw [List.flatMap_cons, List.filter_append]
    rcases List.mem_cons.mp hmem with h | h
    · cases h.symm
      have h1 : (jEdgeFor positions (c, ps)).filter
          (fun e => e.target == c && e.ftype == "smoothstep") =
          jEdgeFor positions (c, ps) := by
        rw [List.filter_eq_self]
        intro e he
        obtain ⟨ht, hf, _, _⟩ := jEdgeFor_target he
        rw [ht, hf]
        simp
      have h2 : ((rest.flatMap (jEdgeFor positions)).filter
          (fun e => e.target == c && e.ftype == "smoothstep")) = [] := by
        rw [List.filter_eq_nil_iff]
        intro e he
        obtain ⟨y, hy, hey⟩ := List.mem_flatMap.mp he
        obtain ⟨ht, _, _, _⟩ := jEdgeFor_target hey
        simp only [Bool.and_eq_true, beq_iff_eq]
        rintro ⟨h3, _⟩
        apply hnd.1
        rw [show ((c, ps) : String × List String).1 = c from rfl]
        rw [← h3, ht]
        exact List.mem_map.mpr ⟨y, hy, rfl⟩
      rw [h1, h2, List.append_nil]
    · have hx1 : x.1 ≠ c := by
        intro he
        apply hnd.1
        rw [he]
        exact List.mem_map.mpr ⟨(c, ps), h, rfl⟩
      have h1 : (jEdgeFor positions x).filter
          (fun e => e.target == c && e.ftype == "smoothstep") = [] := by
        rw [List.filter_eq_nil_iff]
        intro e he
        obtain ⟨ht, _, _, _⟩ := jEdgeFor_target he
        simp only [Bool.and_eq_true, beq_iff_eq]
        rintro ⟨h3, _⟩
        exact hx1 (by rw [← ht, h3])
      rw [h1, List.nil_append]
      exact ih hnd.2 c ps h

theorem normalFold_target_straight (twoParent : List String) (c : String)
    (hc : c ∈ twoParent) :
    ∀ (relEdges : List RelationshipEdge) (acc : List FlowEdge),
      (∀ e ∈ acc, e.target = c → e.ftype = "straight") →
      ∀ e ∈ relEdges.foldl (normalEdgeStep twoParent) acc, e.target = c →
        e.ftype = "straight" := by
  intro relEdges
  induction relEdges with
  | nil => intro acc hacc e he ht; exact hacc e he ht
  | cons e0 rest ih =>
    intro acc hacc e he ht
    refine ih (normalEdgeStep twoParent acc e0) ?_ e he ht
    intro f hf htf
    unfold normalEdgeStep at hf
    cases hr : e0.rtype with
    | spouse =>
      rw [hr] at hf
      rcases List.mem_append.mp hf with h | h
      · exact hacc f h htf
      · have : f = ⟨e0.id, e0.source, e0.target, "straight"⟩ := by simpa using h
        rw [this]
    | parentChild =>
      rw [hr] at hf
      by_cases h2 : e0.target ∈ twoParent
      · rw [if_pos h2] at hf
        exact hacc f hf htf
      · rw [if_neg h2] at hf
        rcases List.mem_append.mp hf with h | h
        · exact hacc f h htf
        · have hfe : f = ⟨e0.id, e0.source, e0.target, "smoothstep"⟩ := by simpa using h
          rw [hfe] at htf
          have htc : e0.target = c := htf
          rw [htc] at h2
          exact absurd hc h2

theorem mem_twoParentChildren {relEdges : List RelationshipEdge} {c : String}
    {ps : List String} (hmem : (c, ps) ∈ childParentsOf relEdges)
    (h2 : ps.length = 2) : c ∈ twoParentChildrenOf relEdges := by
  unfold twoParentChildrenOf
  refine List.mem_map.mpr ⟨(c, ps), List.mem_filter.mpr ⟨hmem, by simp [h2]⟩, rfl⟩

/-- Claim C1 (amended): when no parent id contains the `'-'` key separator,
every two-parent child with both parents positioned gets exactly one junction
per sorted parent pair, at the parents' x midpoint, and its only incoming
parent connector is the single junction edge. -/
theorem C1_junction_merge_hyphen_free (relEdges : List RelationshipEdge)
    (positions : List (String × Pos)) (H : pcSourcesHyphenFree relEdges) :
    C1Statement relEdges positions := by
  intro ce hce p0 p1 hps q0 hq0 q1 hq1
  obtain ⟨c, ps⟩ := ce
  simp only at hps
  subst hps
  have inv := buildFlow_inv relEdges positions H
  have h2 : ([p0, p1] : List String).length = 2 := rfl
  have hres : pairResolved positions [p0, p1] := pairResolved_pair hq0 hq1
  have hisSome : (alLookup
      ((childParentsOf relEdges).foldl (junctionStep positions)
        ⟨[], [], []⟩).spouseJunctions (pairKeyOf [p0, p1])).isSome :=
    (inv.sj_iff (pairKeyOf [p0, p1])).mpr ⟨(c, [p0, p1]), hce, h2, rfl, hres⟩
  refine ⟨?_, ?_, ?_⟩
  · rw [buildFlowElements_eq]
    rw [show (((childParentsOf relEdges).foldl (junctionStep positions) ⟨[], [], []⟩).edges ++
        relEdges.foldl (normalEdgeStep (twoParentChildrenOf relEdges)) [],
        ((childParentsOf relEdges).foldl (junctionStep positions)
          ⟨[], [], []⟩).junctionNodes).2 =
      ((childParentsOf relEdges).foldl (junctionStep positions)
        ⟨[], [], []⟩).junctionNodes from rfl]
    rw [inv.node_count (pairKeyOf [p0, p1]), if_pos hisSome]
  · intro j hj hid
    rw [buildFlowElements_eq] at hj
    obtain ⟨x, hx, hl, hresx, hidx, hxsum⟩ := inv.node_src j hj
    have hkeq : pairKeyOf x.2 = pairKeyOf [p0, p1] :=
      junction_id_inj (by rw [← hidx, hid])
    have hperm := pair_key_eq_perm hl h2 (cp_hyphenFree H x hx)
      (cp_hyphenFree H (c, [p0, p1]) hce) hkeq
    have hsum : 2 * j.x = q0.x + q1.x := by
      rw [hxsum, pairXSum_perm hperm, pairXSum_pair hq0 hq1]
    linarith
  · rw [buildFlowElements_eq]
    rw [show (((childParentsOf relEdges).foldl (junctionStep positions) ⟨[], [], []⟩).edges ++
        relEdges.foldl (normalEdgeStep (twoParentChildrenOf relEdges)) [],
        ((childParentsOf relEdges).foldl (junctionStep positions)
          ⟨[], [], []⟩).junctionNodes).1 =
      ((childParentsOf relEdges).foldl (junctionStep positions) ⟨[], [], []⟩).edges ++
        relEdges.foldl (normalEdgeStep (twoParentChildrenOf relEdges)) [] from rfl]
    rw [List.filter_append, inv.edges_eq,
      flatMap_jEdge_filter positions (childParentsOf relEdges)
        (childParentsOf_keys_nodup relEdges) c [p0, p1] hce,
      jEdgeFor_eq_cons h2 hres]
    have hnil : (relEdges.foldl (normalEdgeStep (twoParentChildrenOf relEdges)) []).filter
        (fun e => e.target == c && e.ftype == "smoothstep") = [] := by
      rw [List.filter_eq_nil_iff]
      intro e he
      simp only [Bool.and_eq_true, beq_iff_eq]
      rintro ⟨ht, hf⟩
      have := normalFold_target_straight (twoParentChildrenOf relEdges) c
        (mem_twoParentChildren hce h2) relEdges [] (by intro e h; simp at h) e he ht
      rw [hf] at this
      simp at this
    rw [hnil, List.append_nil]

/-- Counterexample to claim C1 as stated: the two distinct positioned parent
pairs of `cexJEdges` share the key `"a-b-c"`, so a single junction serves
both and cannot be at both midpoints (5 and 150). -/
theorem C1_counterexample : ¬ C1Statement cexJEdges cexJPosC1 := by
  intro h
  have hu := h ("u", ["a-b", "c"]) (by decide) "a-b" "c" rfl ⟨0, 0⟩ rfl ⟨10, 0⟩ rfl
  have hv := h ("v", ["a", "b-c"]) (by decide) "a" "b-c" rfl ⟨100, 0⟩ rfl ⟨200, 0⟩ rfl
  obtain ⟨j, hj⟩ := List.length_eq_one.mp hu.1
  have hjmem := List.mem_filter.mp (hj ▸ List.mem_cons_self j [])
  have hjid : j.id = "junction-" ++ pairKeyOf (("u", ["a-b", "c"]) :
      String × List String).2 := by
    have := hjmem.2
    simpa using this
  have h5 := hu.2.1 j hjmem.1 hjid
  have h150 := hv.2.1 j hjmem.1 (by rw [hjid]; decide)
  rw [h5] at h150
  norm_num at h150

/-- Witness for the amended C1 on a hyphen-free positioned pair. -/
theorem C1_junction_witness : pcSourcesHyphenFree wJEdges ∧ C1Statement wJEdges wJPosC1 :=
  ⟨by decide, C1_junction_merge_hyphen_free wJEdges wJPosC1 (by decide)⟩

/-- Claim C10 (amended): when no parent id contains `'-'`, a two-parent child
with an unpositioned parent gets no junction for its pair and no parent
connector at all. -/
theorem C10_missing_parent_hyphen_free (relEdges : List RelationshipEdge)
    (positions : List (String × Pos)) (H : pcSourcesHyphenFree relEdges) :
    C10Statement relEdges positions := by
  intro ce hce h2 hmiss
  obtain ⟨c, ps⟩ := ce
  simp only at h2 hmiss
  have inv := buildFlow_inv relEdges positions H
  have hnres : ¬ pairResolved positions ps := by
    obtain ⟨p, hp, hnone⟩ := hmiss
    intro hres
    have := hres p hp
    rw [hnone] at this
    cases this
  constructor
  · intro j hj hid
    rw [buildFlowElements_eq] at hj
    obtain ⟨x, hx, hl, hresx, hidx, _⟩ := inv.node_src j hj
    have hkeq : pairKeyOf x.2 = pairKeyOf ps := junction_id_inj (by rw [← hidx, hid])
    have hperm := pair_key_eq_perm hl h2 (cp_hyphenFree H x hx)
      (cp_hyphenFree H (c, ps) hce) hkeq
    exact hnres (pairResolved_perm hperm hresx)
  · intro e he ht
    rw [buildFlowElements_eq] at he
    rcases List.mem_append.mp he with h | h
    · rw [inv.edges_eq] at h
      obtain ⟨y, hy, hey⟩ := List.mem_flatMap.mp h
      obtain ⟨hty, _, _, _⟩ := jEdgeFor_target hey
      have hy1 : y.1 = c := by rw [← hty, ht]
      have hyc : y = (c, ps) := cp_entry_unique hce hy hy1
      rw [hyc, jEdgeFor_eq_nil (fun hcon => hnres hcon.2)] at hey
      cases hey
    · exact normalFold_target_straight (twoParentChildrenOf relEdges) c
        (mem_twoParentChildren hce h2) relEdges [] (by intro f hf; simp at hf) e h ht

/-- Counterexample to claim C10 as stated: in `cexJEdges` with
`cexJPosC10`, the pair of child `v` has the unpositioned parent `b-c`, yet the
colliding key `"a-b-c"` already owns a junction (from `u`'s pair), so a
junction edge into `v` is still emitted. -/
theorem C10_counterexample : ¬ C10Statement cexJEdges cexJPosC10 := by
  intro h
  have hv := h ("v", ["a", "b-c"]) (by decide) (by decide)
    ⟨"b-c", by decide, by decide⟩
  have hmem : (⟨"e-junction-a-b-c-v", "junction-a-b-c", "v", "smoothstep"⟩ : FlowEdge)
      ∈ (buildFlowElements cexJEdges cexJPosC10).1 := by decide
  have := hv.2 _ hmem rfl
  exact absurd this (by decide)

/-- Witness for the amended C10: hyphen-free pair with parent `m` unpositioned. -/
theorem C10_missing_witness :
    pcSourcesHyphenFree wJEdges ∧ C10Statement wJEdges wJPosC10 :=
  ⟨by decide, C10_missing_parent_hyphen_free wJEdges wJPosC10 (by decide)⟩

/-! ## C7: the sibling sorter -/

theorem isEmpty_eq (l : List String) : l.isEmpty = !decide (l.length > 0) := by
  cases l <;> simp

theorem notIsEmpty_eq (l : List String) : (!l.isEmpty) = decide (l.length > 0) := by
  rw [isEmpty_eq, Bool.not_not]

theorem groupMembers_cons_self (p : PersonData) (ps : List PersonData)
    (hp : p.parentIds.length > 0) :
    groupMembers (p :: ps) (parentGroupKey p) = p :: groupMembers ps (parentGroupKey p) := by
  simp [groupMembers, List.filter_cons, hp]

theorem groupMembers_cons_noparent (p : PersonData) (ps : List PersonData) (k : String)
    (hp : ¬ p.parentIds.length > 0) :
    groupMembers (p :: ps) k = groupMembers ps k := by
  simp [groupMembers, List.filter_cons, hp]

theorem groupMembers_cons_ne (p : PersonData) (ps : List PersonData) (k : String)
    (hk : parentGroupKey p ≠ k) :
    groupMembers (p :: ps) k = groupMembers ps k := by
  simp [groupMembers, List.filter_cons, hk]

theorem freshGroups_cons (p : PersonData) (rest : List PersonData) (seen : List String) :
    freshGroups (p :: rest) seen =
      if p.parentIds.length > 0 ∧ parentGroupKey p ∉ seen then
        (parentGroupKey p, p :: groupMembers rest (parentGroupKey p)) ::
          freshGroups rest (parentGroupKey p :: seen)
      else freshGroups rest seen := rfl

theorem freshKeysOf_cons (p : PersonData) (rest : List PersonData) (seen : List String) :
    freshKeysOf (p :: rest) seen =
      if p.parentIds.length > 0 ∧ parentGroupKey p ∉ seen then
        parentGroupKey p :: freshKeysOf rest (parentGroupKey p :: seen)
      else freshKeysOf rest seen := rfl

theorem firstKeys_cons (k : String) (ks seen : List String) :
    firstKeys (k :: ks) seen =
      if k ∈ seen then firstKeys ks seen else k :: firstKeys ks (k :: seen) := rfl

theorem freshGroups_congr : ∀ (ps : List PersonData) (s1 s2 : List String),
    (∀ k, k ∈ s1 ↔ k ∈ s2) → freshGroups ps s1 = freshGroups ps s2 := by
  intro ps
  induction ps with
  | nil => intro s1 s2 _; rfl
  | cons p rest ih =>
    intro s1 s2 hs
    rw [freshGroups_cons, freshGroups_cons]
    by_cases hc : p.parentIds.length > 0 ∧ parentGroupKey p ∉ s1
    · rw [if_pos hc, if_pos ⟨hc.1, fun h => hc.2 ((hs _).mpr h)⟩]
      congr 1
      refine ih _ _ ?_
      intro k
      simp only [List.mem_cons]
      exact or_congr Iff.rfl (hs k)
    · rw [if_neg hc, if_neg (fun h => hc ⟨h.1, fun h2 => h.2 ((hs _).mp h2)⟩)]
      exact ih _ _ hs

theorem mem_freshKeys_not_seen : ∀ (ps : List PersonData) (seen : List String) (k : String),
    k ∈ freshKeysOf ps seen → k ∉ seen := by
  intro ps
  induction ps with
  | nil => intro seen k h; simp [freshKeysOf] at h
  | cons p rest ih =>
    intro seen k h
    rw [freshKeysOf_cons] at h
    by_cases hc : p.parentIds.length > 0 ∧ parentGroupKey p ∉ seen
    · rw [if_pos hc] at h
      rcases List.mem_cons.mp h with h1 | h1
      · rw [h1]; exact hc.2
      · intro hk
        exact ih _ _ h1 (List.mem_cons_of_mem _ hk)
    · rw [if_neg hc] at h
      exact ih _ _ h

theorem freshKeys_nodup : ∀ (ps : List PersonData) (seen : List String),
    (freshKeysOf ps seen).Nodup := by
  intro ps
  induction ps with
  | nil => intro seen; simp [freshKeysOf]
  | cons p rest ih =>
    intro seen
    rw [freshKeysOf_cons]
    by_cases hc : p.parentIds.length > 0 ∧ parentGroupKey p ∉ seen
    · rw [if_pos hc, List.nodup_cons]
      refine ⟨?_, ih _⟩
      intro hmem
      exact mem_freshKeys_not_seen _ _ _ hmem (List.mem_cons_self _ _)
    · rw [if_neg hc]
      exact ih _

theorem mem_key_freshKeys : ∀ (ps : List PersonData) (seen : List String) (p : PersonData),
    p ∈ ps → p.parentIds.length > 0 →
    parentGroupKey p ∈ seen ∨ parentGroupKey p ∈ freshKeysOf ps seen := by
  intro ps
  induction ps with
  | nil => intro seen p h _; simp at h
  | cons q rest ih =>
    intro seen p hmem hp
    rw [freshKeysOf_cons]
    by_cases hc : q.parentIds.length > 0 ∧ parentGroupKey q ∉ seen
    · rw [if_pos hc]
      rcases List.mem_cons.mp hmem with h | h
      · subst h
        exact Or.inr (List.mem_cons_self _ _)
      · rcases ih (parentGroupKey q :: seen) p h hp with h1 | h1
        · rcases List.mem_cons.mp h1 with h2 | h2
          · right
            rw [h2]
            exact List.mem_cons_self _ _
          · exact Or.inl h2
        · exact Or.inr (List.mem_cons_of_mem _ h1)
    · rw [if_neg hc]
      rcases List.mem_cons.mp hmem with h | h
      · subst h
        left
        by_contra hns
        exact hc ⟨hp, hns⟩
      · exact ih seen p h hp

theorem freshGroups_eq_map : ∀ (ps : List PersonData) (seen : List String),
    freshGroups ps seen = (freshKeysOf ps seen).map (fun k => (k, groupMembers ps k)) := by
  intro ps
  induction ps with
  | nil => intro seen; rfl
  | cons p rest ih =>
    intro seen
    rw [freshGroups_cons, freshKeysOf_cons]
    by_cases hc : p.parentIds.length > 0 ∧ parentGroupKey p ∉ seen
    · rw [if_pos hc, if_pos hc, List.map_cons]
      congr 1
      · rw [groupMembers_cons_self p rest hc.1]
      · rw [ih (parentGroupKey p :: seen)]
        refine List.map_congr_left ?_
        intro k hk
        have hne : k ≠ parentGroupKey p := by
          intro he
          refine mem_freshKeys_not_seen rest _ k hk ?_
          rw [he]
          exact List.mem_cons_self _ _
        rw [groupMembers_cons_ne p rest k (fun he => hne he.symm)]
    · rw [if_neg hc, if_neg hc, ih seen]
      refine List.map_congr_left ?_
      intro k hk
      by_cases hp : p.parentIds.length > 0
      · have hkp : parentGroupKey p ∈ seen := by
          by_contra hns
          exact hc ⟨hp, hns⟩
        have hne : k ≠ parentGroupKey p := by
          intro he
          exact mem_freshKeys_not_seen rest seen k hk (he ▸ hkp)
        rw [groupMembers_cons_ne p rest k (fun he => hne he.symm)]
      · rw [groupMembers_cons_noparent p rest k hp]

theorem freshKeys_eq_firstKeys : ∀ (ps : List PersonData) (seen : List String),
    freshKeysOf ps seen =
      firstKeys ((ps.filter (fun q => decide (q.parentIds.length > 0))).map parentGroupKey)
        seen := by
  intro ps
  induction ps with
  | nil => intro seen; rfl
  | cons p rest ih =>
    intro seen
    by_cases hp : p.parentIds.length > 0
    · rw [freshKeysOf_cons,
        show (p :: rest).filter (fun q => decide (q.parentIds.length > 0)) =
          p :: rest.filter (fun q => decide (q.parentIds.length > 0)) by
            simp [List.filter_cons, hp],
        List.map_cons, firstKeys_cons]
      by_cases hs : parentGroupKey p ∈ seen
      · rw [if_neg (fun h => h.2 hs), if_pos hs]
        exact ih seen
      · rw [if_pos ⟨hp, hs⟩, if_neg hs]
        congr 1
        exact ih (parentGroupKey p :: seen)
    · rw [freshKeysOf_cons, if_neg (fun h => hp h.1),
        show (p :: rest).filter (fun q => decide (q.parentIds.length > 0)) =
          rest.filter (fun q => decide (q.parentIds.length > 0)) by
            simp [List.filter_cons, hp]]
      exact ih seen

theorem alSet_absent {K α : Type} [DecidableEq K] :
    ∀ (l : List (K × α)) (k : K) (v : α), alLookup l k = none →
      alSet l k v = l ++ [(k, v)] := by
  intro l
  induction l with
  | nil => intro k v _; rfl
  | cons e rest ih =>
    intro k v h
    by_cases he : e.1 = k
    · simp [alLookup, he] at h
    · simp only [alLookup, if_neg he] at h
      simp only [alSet, if_neg he, List.cons_append]
      rw [ih k v h]

theorem alKeys_alSet_present {K α : Type} [DecidableEq K] :
    ∀ (l : List (K × α)) (k : K) (v : α), (alLookup l k).isSome →
      alKeys (alSet l k v) = alKeys l := by
  intro l
  induction l with
  | nil => intro k v h; simp [alLookup] at h
  | cons e rest ih =>
    intro k v h
    by_cases he : e.1 = k
    · simp [alSet, alKeys, he]
    · simp only [alLookup, if_neg he] at h
      have h1 : alSet (e :: rest) k v = e :: alSet rest k v := by
        simp [alSet, if_neg he]
      rw [h1, show alKeys (e :: alSet rest k v) = e.1 :: alKeys (alSet rest k v) from rfl,
        show alKeys (e :: rest) = e.1 :: alKeys rest from rfl, ih k v h]

theorem alSet_present_map {K α : Type} [DecidableEq K] :
    ∀ (l : List (K × α)) (k : K) (v : α), (alKeys l).Nodup → ∀ w, alLookup l k = some w →
      alSet l k v = l.map (fun e => if e.1 = k then (k, v) else e) := by
  intro l
  induction l with
  | nil => intro k v _ w hw; simp [alLookup] at hw
  | cons e rest ih =>
    intro k v hnd w hw
    rw [show alKeys (e :: rest) = e.1 :: alKeys rest from rfl, List.nodup_cons] at hnd
    by_cases he : e.1 = k
    · simp only [alSet, if_pos he, List.map_cons, if_pos he]
      congr 1
      symm
      have hrest : ∀ a ∈ rest, (if a.1 = k then (k, v) else a) = a := by
        intro a ha
        rw [if_neg]
        intro hak
        rw [he] at hnd
        exact hnd.1 (hak ▸ List.mem_map.mpr ⟨a, ha, rfl⟩)
      rw [List.map_congr_left hrest, List.map_id']
    · simp only [alLookup, if_neg he] at hw
      simp only [alSet, if_neg he, List.map_cons, if_neg he]
      congr 1
      exact ih k v hnd.2 w hw

theorem alEntry_unique {K α : Type} [DecidableEq K] {l : List (K × α)} {k : K} {w : α}
    (hnd : (alKeys l).Nodup) (hw : alLookup l k = some w) :
    ∀ e ∈ l, e.1 = k → e = (k, w) := by
  intro e he hek
  have h1 : (k, w) ∈ l := alLookup_mem hw
  exact List.inj_on_of_nodup_map (f := Prod.fst) hnd he h1 (by rw [hek])

theorem groupStep_parent (np : List PersonData) (gm : List (String × List PersonData))
    (p : PersonData) (hp : p.parentIds.length > 0) :
    groupStep (np, gm) p =
      (np, alSet gm (parentGroupKey p)
        ((alLookup gm (parentGroupKey p)).getD [] ++ [p])) := by
  unfold groupStep
  rw [if_pos hp]

theorem groupStep_noparent (np : List PersonData) (gm : List (String × List PersonData))
    (p : PersonData) (hp : ¬ p.parentIds.length > 0) :
    groupStep (np, gm) p = (np ++ [p], gm) := by
  unfold groupStep
  rw [if_neg hp]

theorem groupFold_eq : ∀ (ps : List PersonData) (np : List PersonData)
    (gm : List (String × List PersonData)), (alKeys gm).Nodup →
    ps.foldl groupStep (np, gm) =
      (np ++ ps.filter (fun q => !decide (q.parentIds.length > 0)),
       gm.map (fun e => (e.1, e.2 ++ groupMembers ps e.1)) ++ freshGroups ps (alKeys gm)) := by
  intro ps
  induction ps with
  | nil =>
    intro np gm _
    simp [groupMembers, freshGroups, List.map_id']
  | cons p rest ih =>
    intro np gm hnd
    rw [List.foldl_cons]
    by_cases hp : p.parentIds.length > 0
    · rw [groupStep_parent np gm p hp]
      by_cases hk : (alLookup gm (parentGroupKey p)).isSome
      · obtain ⟨ms, hms⟩ := Option.isSome_iff_exists.mp hk
        have hKmem : parentGroupKey p ∈ alKeys gm := (alLookup_isSome_iff gm _).mp hk
        rw [hms, Option.getD_some]
        have hnd' : (alKeys (alSet gm (parentGroupKey p) (ms ++ [p]))).Nodup := by
          rw [alKeys_alSet_present gm (parentGroupKey p) (ms ++ [p]) hk]
          exact hnd
        rw [ih np (alSet gm (parentGroupKey p) (ms ++ [p])) hnd']
        simp only [Prod.mk.injEq]
        refine ⟨?_, ?_⟩
        · congr 1
          simp [List.filter_cons, hp]
        · rw [alKeys_alSet_present gm (parentGroupKey p) (ms ++ [p]) hk]
          rw [freshGroups_cons, if_neg (fun h => h.2 hKmem)]
          congr 1
          rw [alSet_present_map gm (parentGroupKey p) (ms ++ [p]) hnd ms hms]
          rw [List.map_map]
          refine List.map_congr_left ?_
          intro e he
          simp only [Function.comp_apply]
          by_cases heK : e.1 = parentGroupKey p
          · have heq : e = (parentGroupKey p, ms) := alEntry_unique hnd hms e he heK
            subst heq
            simp [groupMembers_cons_self p rest hp, List.append_assoc]
          · rw [if_neg heK]
            rw [groupMembers_cons_ne p rest e.1 (fun h => heK h.symm)]
      · have hnone : alLookup gm (parentGroupKey p) = none :=
          Option.not_isSome_iff_eq_none.mp hk
        have hKnot : parentGroupKey p ∉ alKeys gm := by
          rw [← alLookup_isSome_iff, hnone]
          simp
        rw [hnone, Option.getD_none, List.nil_append]
        rw [alSet_absent gm (parentGroupKey p) [p] hnone]
        have hkeys : alKeys (gm ++ [(parentGroupKey p, [p])]) =
            alKeys gm ++ [parentGroupKey p] := by
          simp [alKeys]
        have hnd' : (alKeys (gm ++ [(parentGroupKey p, [p])])).Nodup := by
          rw [hkeys]
          refine List.Nodup.append hnd (List.nodup_singleton _) ?_
          intro a ha hb
          rw [List.mem_singleton] at hb
          rw [hb] at ha
          exact hKnot ha
        rw [ih np (gm ++ [(parentGroupKey p, [p])]) hnd']
        simp only [Prod.mk.injEq]
        refine ⟨?_, ?_⟩
        · congr 1
          simp [List.filter_cons, hp]
        · rw [hkeys]
          rw [freshGroups_congr rest (alKeys gm ++ [parentGroupKey p])
            (parentGroupKey p :: alKeys gm) (fun k => by simp [or_comm])]
          rw [List.map_append, List.append_assoc]
          rw [freshGroups_cons, if_pos ⟨hp, hKnot⟩]
          congr 1
          · refine List.map_congr_left ?_
            intro e he
            rw [groupMembers_cons_ne p rest e.1
              (fun h => hKnot (by rw [h]; exact List.mem_map.mpr ⟨e, he, rfl⟩))]
    · rw [groupStep_noparent np gm p hp]
      rw [ih (np ++ [p]) gm hnd]
      simp only [Prod.mk.injEq]
      refine ⟨?_, ?_⟩
      · rw [List.append_assoc]
        congr 1
        simp [List.filter_cons, hp]
      · rw [freshGroups_cons, if_neg (fun h => hp h.1)]
        congr 1
        refine List.map_congr_left ?_
        intro e he
        rw [groupMembers_cons_noparent p rest e.1 hp]

theorem siblingGroups_eq (persons : List PersonData) :
    siblingGroups persons =
      (persons.filter (fun q => !decide (q.parentIds.length > 0)), freshGroups persons []) := by
  unfold siblingGroups
  rw [groupFold_eq persons [] [] (by simp [alKeys])]
  simp [alKeys]

theorem orderListOf_eq (persons : List PersonData) :
    orderListOf persons =
      persons.filter (fun q => !decide (q.parentIds.length > 0)) ++
        ((freshKeysOf persons []).map
          (fun k => (groupMembers persons k).insertionSort sibOrderRel)).flatten := by
  unfold orderListOf
  rw [siblingGroups_eq]
  dsimp only
  congr 1
  rw [freshGroups_eq_map persons [], List.map_map]
  rfl

theorem specSiblingOrder_eq (persons : List PersonData) :
    specSiblingOrder persons = orderListOf persons := by
  rw [orderListOf_eq]
  unfold specSiblingOrder
  have hkeys : groupKeysOf persons = freshKeysOf persons [] := by
    have hfil : persons.filter (fun q => !q.parentIds.isEmpty) =
        persons.filter (fun q => decide (q.parentIds.length > 0)) :=
      List.filter_congr (fun q _ => by rw [notIsEmpty_eq])
    unfold groupKeysOf
    rw [hfil, freshKeys_eq_firstKeys]
  congr 1
  · exact List.filter_congr (fun q _ => by rw [isEmpty_eq])
  · rw [hkeys]
    congr 1
    refine List.map_congr_left ?_
    intro k hk
    have hfil : persons.filter (fun q => !q.parentIds.isEmpty && (parentGroupKey q == k)) =
        groupMembers persons k := by
      unfold groupMembers
      exact List.filter_congr (fun q _ => by rw [notIsEmpty_eq])
    rw [hfil]

theorem flatten_map_perm {α β : Type} (f g : β → List α) :
    ∀ (ks : List β), (∀ k ∈ ks, (f k).Perm (g k)) →
      ((ks.map f).flatten).Perm ((ks.map g).flatten) := by
  intro ks
  induction ks with
  | nil => intro _; simp
  | cons k ks2 ih =>
    intro h
    rw [List.map_cons, List.map_cons, List.flatten_cons, List.flatten_cons]
    exact (h k (List.mem_cons_self _ _)).append
      (ih (fun x hx => h x (List.mem_cons_of_mem _ hx)))

theorem flatten_filter_perm {α : Type} (f : α → String) :
    ∀ (ks : List String) (xs : List α), ks.Nodup → (∀ x ∈ xs, f x ∈ ks) →
      ((ks.map (fun k => xs.filter (fun x => f x == k))).flatten).Perm xs := by
  intro ks
  induction ks with
  | nil =>
    intro xs _ hall
    cases xs with
    | nil => simp
    | cons x xs2 => exact absurd (hall x (List.mem_cons_self _ _)) (List.not_mem_nil _)
  | cons k ks2 ih =>
    intro xs hnd hall
    rw [List.nodup_cons] at hnd
    rw [List.map_cons, List.flatten_cons]
    have hsub : ∀ k2 ∈ ks2, xs.filter (fun x => f x == k2) =
        (xs.filter (fun x => !(f x == k))).filter (fun x => f x == k2) := by
      intro k2 hk2
      rw [List.filter_filter]
      refine List.filter_congr ?_
      intro x _
      cases hbx : (f x == k2) with
      | false => simp [hbx]
      | true =>
        have hfx : f x = k2 := by simpa using hbx
        have hne : (f x == k) = false := by
          simp only [beq_eq_false_iff_ne, ne_eq]
          rw [hfx]
          intro he
          exact hnd.1 (he ▸ hk2)
        simp [hbx, hne]
    have hmap : ks2.map (fun k2 => xs.filter (fun x => f x == k2)) =
        ks2.map (fun k2 => (xs.filter (fun x => !(f x == k))).filter (fun x => f x == k2)) :=
      List.map_congr_left hsub
    rw [hmap]
    have hall2 : ∀ x ∈ xs.filter (fun x => !(f x == k)), f x ∈ ks2 := by
      intro x hx
      rw [List.mem_filter] at hx
      rcases List.mem_cons.mp (hall x hx.1) with h | h
      · exfalso
        have hb : (f x == k) = true := by simpa using h
        rw [hb] at hx
        simp at hx
      · exact h
    have hih := ih (xs.filter (fun x => !(f x == k))) hnd.2 hall2
    exact (List.Perm.append_left _ hih).trans (List.filter_append_perm _ xs)

theorem orderListOf_perm (persons : List PersonData) :
    (orderListOf persons).Perm persons := by
  rw [orderListOf_eq]
  have hmem : ∀ x ∈ persons.filter (fun q => decide (q.parentIds.length > 0)),
      parentGroupKey x ∈ freshKeysOf persons [] := by
    intro x hx
    rw [List.mem_filter] at hx
    rcases mem_key_freshKeys persons [] x hx.1 (by simpa using hx.2) with h | h
    · exact absurd h (List.not_mem_nil _)
    · exact h
  have h2 := flatten_filter_perm parentGroupKey (freshKeysOf persons [])
    (persons.filter (fun q => decide (q.parentIds.length > 0)))
    (freshKeys_nodup persons []) hmem
  have h1 := flatten_map_perm (fun k => (groupMembers persons k).insertionSort sibOrderRel)
    (fun k => groupMembers persons k) (freshKeysOf persons [])
    (fun k _ => List.perm_insertionSort _ _)
  have h5 : ((freshKeysOf persons []).map (fun k => groupMembers persons k)) =
      ((freshKeysOf persons []).map (fun k =>
        (persons.filter (fun q => decide (q.parentIds.length > 0))).filter
          (fun x => parentGroupKey x == k))) := by
    refine List.map_congr_left ?_
    intro k _
    rw [List.filter_filter]
    unfold groupMembers
    exact List.filter_congr (fun q _ => Bool.and_comm _ _)
  have h6 : ((freshKeysOf persons []).map (fun k =>
      (groupMembers persons k).insertionSort sibOrderRel)).flatten.Perm
      (persons.filter (fun q => decide (q.parentIds.length > 0))) := by
    refine List.Perm.trans ?_ h2
    rw [← h5]
    exact h1
  refine (List.Perm.append_left _ h6).trans ?_
  exact List.perm_append_comm.trans (List.filter_append_perm _ persons)

theorem orderFold_untouched : ∀ (ps : List PersonData) (m : List (String × Nat)) (n : Nat)
    (k : String), k ∉ ps.map PersonData.id →
    alLookup ((ps.foldl orderMapGo (m, n)).1) k = alLookup m k := by
  intro ps
  induction ps with
  | nil => intro m n k _; rfl
  | cons p rest ih =>
    intro m n k hk
    have h1 : k ∉ rest.map PersonData.id := fun h => hk (List.mem_cons_of_mem _ h)
    have h2 : p.id ≠ k := by
      intro h
      refine hk ?_
      rw [← h]
      exact List.mem_cons_self _ _
    rw [show (p :: rest).foldl orderMapGo (m, n) =
      rest.foldl orderMapGo (alSet m p.id n, n + 1) from rfl]
    rw [ih (alSet m p.id n) (n + 1) k h1]
    exact alLookup_alSet_ne m p.id k n h2

theorem orderFold_get : ∀ (ps : List PersonData) (m : List (String × Nat)) (n : Nat),
    (ps.map PersonData.id).Nodup → ∀ (i : Fin ps.length),
    alLookup ((ps.foldl orderMapGo (m, n)).1) (ps.get i).id = some (n + i.val) := by
  intro ps
  induction ps with
  | nil => intro m n _ i; exact absurd i.isLt (by simp)
  | cons p rest ih =>
    intro m n hnd i
    rw [List.map_cons, List.nodup_cons] at hnd
    rcases i with ⟨iv, hi⟩
    rw [show (p :: rest).foldl orderMapGo (m, n) =
      rest.foldl orderMapGo (alSet m p.id n, n + 1) from rfl]
    cases iv with
    | zero =>
      rw [show (p :: rest).get ⟨0, hi⟩ = p from rfl]
      rw [orderFold_untouched rest (alSet m p.id n) (n + 1) p.id hnd.1]
      rw [alLookup_alSet_self m p.id n]
      simp
    | succ j =>
      have hj : j < rest.length := Nat.lt_of_succ_lt_succ hi
      rw [show (p :: rest).get ⟨j + 1, hi⟩ = rest.get ⟨j, hj⟩ from rfl]
      rw [ih (alSet m p.id n) (n + 1) hnd.2 ⟨j, hj⟩]
      simp only [Fin.val_mk]
      congr 1
      omega

theorem orderMap_lookup_get (persons : List PersonData)
    (hnd : ((orderListOf persons).map PersonData.id).Nodup)
    (i : Fin (orderListOf persons).length) :
    alLookup (orderMapOf persons) ((orderListOf persons).get i).id = some i.val := by
  have h := orderFold_get (orderListOf persons) [] 0 hnd i
  simpa [orderMapOf] using h

theorem orderList_pairwise (persons : List PersonData)
    (hnd : ((orderListOf persons).map PersonData.id).Nodup) :
    (orderListOf persons).Pairwise (fun a b =>
      (alLookup (orderMapOf persons) a.id).getD 0 ≤
        (alLookup (orderMapOf persons) b.id).getD 0) := by
  rw [List.pairwise_iff_get]
  intro i j hij
  rw [orderMap_lookup_get persons hnd i, orderMap_lookup_get persons hnd j]
  simp only [Option.getD_some]
  exact Nat.le_of_lt hij

theorem sorted_perm_eq {α : Type} {r : α → α → Prop} :
    ∀ (l₁ l₂ : List α), l₁.Perm l₂ → l₁.Pairwise r → l₂.Pairwise r →
      (∀ a ∈ l₁, ∀ b ∈ l₁, r a b → r b a → a = b) → l₁ = l₂ := by
  intro l₁
  induction l₁ with
  | nil =>
    intro l₂ hp _ _ _
    exact (List.Perm.eq_nil hp.symm).symm
  | cons a t₁ ih =>
    intro l₂ hp hs₁ hs₂ hanti
    have ha2 : a ∈ l₂ := hp.mem_iff.mp (List.mem_cons_self a t₁)
    cases l₂ with
    | nil => exact absurd ha2 (List.not_mem_nil a)
    | cons b t₂ =>
      have hab : a = b := by
        rcases List.mem_cons.mp ha2 with h | h
        · exact h
        · have hb1 : b ∈ a :: t₁ := hp.mem_iff.mpr (List.mem_cons_self b t₂)
          rcases List.mem_cons.mp hb1 with h2 | h2
          · exact h2.symm
          · have hrab : r a b := (List.pairwise_cons.mp hs₁).1 b h2
            have hrba : r b a := (List.pairwise_cons.mp hs₂).1 a h
            exact hanti a (List.mem_cons_self a t₁) b hb1 hrab hrba
      subst hab
      have ht : t₁.Perm t₂ := hp.cons_inv
      congr 1
      exact ih t₂ ht (List.pairwise_cons.mp hs₁).2 (List.pairwise_cons.mp hs₂).2
        (fun x hx y hy => hanti x (List.mem_cons_of_mem a hx) y (List.mem_cons_of_mem a hy))

/-- Claim C7 (amended): when all person ids are distinct, the sibling sorter
returns a permutation of the input equal to the spec order: no-parent people
first in input order, sibling groups in first-encountered order, each group
sorted by the `childSortOrder` rank ascending with id comparison as
tie-break. -/
theorem C7_sibling_sort (persons : List PersonData)
    (hnd : (persons.map PersonData.id).Nodup) :
    (sortSiblings persons).Perm persons ∧
      sortSiblings persons = specSiblingOrder persons := by
  have hLperm : (orderListOf persons).Perm persons := orderListOf_perm persons
  have hperm : (sortSiblings persons).Perm persons := List.perm_insertionSort _ _
  refine ⟨hperm, ?_⟩
  rw [specSiblingOrder_eq]
  have hndL : ((orderListOf persons).map PersonData.id).Nodup :=
    ((hLperm.map PersonData.id).nodup_iff).mpr hnd
  haveI hT : IsTotal PersonData (fun a b : PersonData =>
      (alLookup (orderMapOf persons) a.id).getD 0 ≤
        (alLookup (orderMapOf persons) b.id).getD 0) :=
    ⟨fun a b => Nat.le_total _ _⟩
  haveI hTr : IsTrans PersonData (fun a b : PersonData =>
      (alLookup (orderMapOf persons) a.id).getD 0 ≤
        (alLookup (orderMapOf persons) b.id).getD 0) :=
    ⟨fun a b c hab hbc => Nat.le_trans hab hbc⟩
  have hs1 : (sortSiblings persons).Pairwise (fun a b =>
      (alLookup (orderMapOf persons) a.id).getD 0 ≤
        (alLookup (orderMapOf persons) b.id).getD 0) :=
    List.sorted_insertionSort _ persons
  have hs2 := orderList_pairwise persons hndL
  refine sorted_perm_eq _ _ (hperm.trans hLperm.symm) hs1 hs2 ?_
  intro a ha b hb hab hba
  have haL : a ∈ orderListOf persons := hLperm.mem_iff.mpr (hperm.mem_iff.mp ha)
  have hbL : b ∈ orderListOf persons := hLperm.mem_iff.mpr (hperm.mem_iff.mp hb)
  obtain ⟨i, hi⟩ := List.get_of_mem haL
  obtain ⟨j, hj⟩ := List.get_of_mem hbL
  rw [← hi, ← hj] at hab hba
  rw [orderMap_lookup_get persons hndL i, orderMap_lookup_get persons hndL j] at hab hba
  simp only [Option.getD_some] at hab hba
  have hij : i.val = j.val := Nat.le_antisymm hab hba
  rw [← hi, ← hj]
  exact congrArg (orderListOf persons).get (Fin.ext hij)

/-- Witness for the amended C7: a daughter inserted before her brother comes
out after him, and the no-parent parents come first. -/
theorem C7_sibling_sort_witness :
    (c7Persons.map PersonData.id).Nodup ∧
      ((sortSiblings c7Persons).Perm c7Persons ∧
        sortSiblings c7Persons = specSiblingOrder c7Persons) :=
  ⟨by decide, C7_sibling_sort c7Persons (by decide)⟩

/-- Counterexample to claim C7 as stated: with two distinct persons sharing one
id, the order map collapses their ranks and the rank table is ignored, so the
output deviates from the described order. -/
theorem C7_counterexample : sortSiblings cexC7Persons ≠ specSiblingOrder cexC7Persons := by
  decide

end FamilyTree
